import Mathlib

/-!
# Verification of the `sflearn` transducer-learning engine

Shallow embedding of the core of the `sflearn` repository
(`sflearn/transducer.py`, `sflearn/angluin_fst.py`,
`sflearn/angluin_fst_lookahead.py`) together with proofs settling the
frozen claims about its specification.

Conventions of the embedding:
* Python integers (input/output symbols, state indices) are `Nat`.
* Python lists and tuples of integers are both `List Nat` (the code uses
  them interchangeably as words).
* A Python function that can raise an exception is modelled as returning
  `Except PyErr _` (or `Option _` when only one failure mode exists).
* Python `dict`s are association lists that are updated in place
  (first occurrence replaced), looked up by first occurrence, and compared
  as unordered key/value collections, exactly as Python `dict` equality.
* The `while` loops of the simulation routines are modelled with explicit
  fuel; exhausting the fuel (`PyErr.diverge`) corresponds to a
  non-terminating Python loop, which can only happen for arcs with empty
  input labels.
-/

/-- The reserved empty-output marker, `EPSILON = 0xffff` in `transducer.py`. -/
def EPSILON : Nat := 0xffff

/-- Exceptions of the Python code, as they appear in the embedded functions:
`invalidInput` is `Exception('Invalid Input: ...')` raised by
`Transducer.consume_input` and `_run_in_hypothesis`; `indexErr` is a Python
`IndexError` (list index out of range); `nameErr` is an
`UnboundLocalError`/`NameError` (local variable referenced before
assignment); `keyErr` is a `KeyError` from a `dict` lookup; `valueErr` is a
`ValueError` from `list.index`; `diverge` is fuel exhaustion and stands for
a non-terminating loop. -/
inductive PyErr where
  | invalidInput
  | indexErr
  | nameErr
  | keyErr
  | valueErr
  | diverge
deriving DecidableEq, Repr

/-- An arc of the transducer, `FstArc` in `transducer.py`.  The `srcstate`
field is stored by the constructor and never read by the engine. -/
structure FstArc where
  srcstate : Nat
  nextstate : Nat
  ilabel : List Nat
  olabel : List Nat
deriving DecidableEq, Repr

/-- A state of the transducer, `FstState` in `transducer.py`.
`FstState.__init__` defaults are `initial=False`, `final=True`, `arcs=[]`. -/
structure FstState where
  stateid : Nat
  initial : Bool
  final : Bool
  arcs : List FstArc
deriving DecidableEq, Repr

/-- `FstState(i)` with all defaults: not initial, final, no arcs. -/
def mkState (i : Nat) : FstState :=
  { stateid := i, initial := false, final := true, arcs := [] }

/-- The transducer, `Transducer` in `transducer.py`.  The constructor
creates state `0` and marks it initial, so the state list of every
`Transducer` object is nonempty; that class invariant is carried in the
type.  `I` is the input-alphabet set maintained by `load`. -/
structure Transducer where
  states : List FstState
  I : Finset Nat
  states_ne : 0 < states.length

/-- `Transducer.__init__`: a single state `0`, marked initial, empty alphabet. -/
def Transducer.init : Transducer :=
  { states := [{ stateid := 0, initial := true, final := true, arcs := [] }],
    I := ∅,
    states_ne := by simp }

/-- Modify the `n`-th element of a list in place (no-op when out of range). -/
def modifyIdx {α : Type} : List α → Nat → (α → α) → List α
  | [], _, _ => []
  | x :: xs, 0, f => f x :: xs
  | x :: xs, n + 1, f => x :: modifyIdx xs n f

theorem modifyIdx_length {α : Type} (l : List α) (n : Nat) (f : α → α) :
    (modifyIdx l n f).length = l.length := by
  induction l generalizing n with
  | nil => rfl
  | cons x xs ih =>
    cases n with
    | zero => rfl
    | succ m => simp [modifyIdx, ih]

theorem getElem?_modifyIdx {α : Type} (l : List α) (n : Nat) (f : α → α) (j : Nat) :
    (modifyIdx l n f)[j]? = if j = n then (l[j]?).map f else l[j]? := by
  induction l generalizing n j with
  | nil => simp [modifyIdx]
  | cons x xs ih =>
    cases n with
    | zero =>
      cases j with
      | zero => simp [modifyIdx]
      | succ i => simp [modifyIdx]
    | succ m =>
      cases j with
      | zero => simp [modifyIdx]
      | succ i => simpa [modifyIdx] using ih m i

/-- The state-padding loop of `Transducer.add_arc`: if `s_idx >= len(states)`
the states `len(states) .. s_idx` are appended with default properties. -/
def padStates (states : List FstState) (n : Nat) : List FstState :=
  states ++ ((List.range (n + 1)).drop states.length).map mkState

theorem padStates_length (states : List FstState) (n : Nat) :
    (padStates states n).length = max states.length (n + 1) := by
  simp [padStates]
  omega

theorem getElem?_padStates (states : List FstState) (n : Nat) (j : Nat) :
    (padStates states n)[j]? =
      if j < states.length then states[j]?
      else if j < n + 1 then some (mkState j) else none := by
  unfold padStates
  by_cases h : j < states.length
  · simp [List.getElem?_append, h]
  · push_neg at h
    rw [List.getElem?_append_right h, List.getElem?_map, List.getElem?_drop]
    have hidx : states.length + (j - states.length) = j := by omega
    rw [hidx]
    by_cases h2 : j < n + 1
    · rw [List.getElem?_range h2]
      simp [Nat.not_lt.mpr h, h2]
    · rw [List.getElem?_eq_none (by simpa using by omega)]
      simp [Nat.not_lt.mpr h, h2]

/-- `Transducer.add_arc(src, dst, inp, out)`: pad the state list so that
`src` and `dst` exist (in that order), then append the new arc to the arc
list of `states[src]`. -/
def Transducer.add_arc (t : Transducer) (src dst : Nat) (inp out : List Nat) :
    Transducer :=
  { states := modifyIdx (padStates (padStates t.states src) dst) src
      (fun st => { st with arcs :=
        st.arcs ++ [{ srcstate := src, nextstate := dst, ilabel := inp, olabel := out }] }),
    I := t.I,
    states_ne := by
      have h1 := t.states_ne
      simp only [modifyIdx_length, padStates_length]
      omega }

/-- Result of `Transducer.consume_input`: a produced output word, the
`Invalid Input` exception, or an internal error (`IndexError` on a state
index, or a non-terminating loop) that cannot occur for transducers built
by the engine. -/
inductive ConsumeResult where
  | ok (out : List Nat)
  | invalidInput
  | err
deriving DecidableEq, Repr

/-- Length of an arc's input label, the sort key `len(x.ilabel)` used by
`consume_input`. -/
def arcLen (a : FstArc) : Nat := a.ilabel.length

/-- Stable insertion of an arc into a list sorted by decreasing input-label
length: the arc goes after every strictly longer label and before every
label of smaller or equal length. -/
def insertArc (a : FstArc) : List FstArc → List FstArc
  | [] => [a]
  | b :: bs => if arcLen a < arcLen b then b :: insertArc a bs else a :: b :: bs

/-- `sorted(arcs, key=lambda x: len(x.ilabel), reverse=True)`: Python's
stable sort by decreasing input-label length. -/
def sortArcs : List FstArc → List FstArc
  | [] => []
  | a :: as => insertArc a (sortArcs as)

/-- The arc-matching test `inp[i:i+len(arc.ilabel)] == arc.ilabel` of
`consume_input`: the label is a prefix of the input remaining at cursor `i`. -/
def arcMatches (inp : List Nat) (i : Nat) (a : FstArc) : Bool :=
  (inp.drop i).take a.ilabel.length = a.ilabel

/-- The loop body of `consume_input`: scan the sorted arcs and take the
first whose input label matches at the cursor. -/
def findArc (arcs : List FstArc) (inp : List Nat) (i : Nat) : Option FstArc :=
  (sortArcs arcs).find? (arcMatches inp i)

/-- The output contribution of a taken arc: the output label is appended
unless it is exactly `[EPSILON]`. -/
def arcOutput (out : List Nat) (a : FstArc) : List Nat :=
  if a.olabel = [EPSILON] then out else out ++ a.olabel

/-- The `while i != len(inp)` loop of `Transducer.consume_input`, with fuel.
Each iteration either returns the accumulated output (cursor at the end),
raises `Invalid Input` (no arc matches), or takes the first matching arc of
the sorted arc list, extends the output, advances the cursor and moves to
the destination state. -/
def consumeLoop (t : Transducer) (inp : List Nat) :
    Nat → FstState → Nat → List Nat → ConsumeResult
  | 0, _, _, _ => .err
  | fuel + 1, st, i, out =>
    if i = inp.length then .ok out
    else
      match findArc st.arcs inp i with
      | none => .invalidInput
      | some a =>
        match t.states[a.nextstate]? with
        | none => .err
        | some st2 => consumeLoop t inp fuel st2 (a.ilabel.length + i) (arcOutput out a)

/-- `Transducer.consume_input(inp)`. -/
def Transducer.consume_input (t : Transducer) (inp : List Nat) : ConsumeResult :=
  match t.states[0]? with
  | none => .err
  | some st0 => consumeLoop t inp (inp.length + 1) st0 0 []

/-! ## Longest-match arc selection, stated the way the specification words it

The specification's *simulation semantics* reads: "starting at state 0 with
the input cursor at 0, repeatedly pick the matching arc with the longest
input label that matches the remaining input, advance the cursor by that
length, append the arc's output label (dropping the epsilon sentinel), and
move to the destination state.  If no arc matches, the input is rejected
with an *invalid-input* failure."  `specPick` and `specConsume` transcribe
that sentence; ties between equal-length matching labels (possible only for
duplicated arcs) resolve to the earliest arc. -/

/-- Spec-side arc selection: among the arcs satisfying `p` (label matches
the remaining input), the one with the longest input label, earliest first
on ties. -/
def specPick (p : FstArc → Bool) : List FstArc → Option FstArc
  | [] => none
  | a :: as =>
    match specPick p as with
    | none => if p a then some a else none
    | some b => if p a && decide (arcLen b ≤ arcLen a) then some a else some b

/-- Sortedness by non-increasing input-label length. -/
def SortedDesc (l : List FstArc) : Prop :=
  l.Pairwise (fun x y => arcLen y ≤ arcLen x)

theorem mem_insertArc (a x : FstArc) (l : List FstArc) :
    x ∈ insertArc a l ↔ x = a ∨ x ∈ l := by
  induction l with
  | nil => simp [insertArc]
  | cons b bs ih =>
    by_cases h : arcLen a < arcLen b
    · simp [insertArc, h, ih]
      tauto
    · simp [insertArc, h]

theorem sortedDesc_insertArc (a : FstArc) (l : List FstArc) (h : SortedDesc l) :
    SortedDesc (insertArc a l) := by
  induction l with
  | nil => simp [insertArc, SortedDesc]
  | cons b bs ih =>
    rw [SortedDesc, List.pairwise_cons] at h
    obtain ⟨hb, hbs⟩ := h
    by_cases hab : arcLen a < arcLen b
    · rw [insertArc, if_pos hab, SortedDesc, List.pairwise_cons]
      refine ⟨?_, ih hbs⟩
      intro y hy
      rcases (mem_insertArc a y bs).mp hy with rfl | hy
      · omega
      · exact hb y hy
    · rw [insertArc, if_neg hab, SortedDesc, List.pairwise_cons]
      push_neg at hab
      refine ⟨?_, ?_⟩
      · intro y hy
        rcases List.mem_cons.mp hy with rfl | hy
        · exact hab
        · exact le_trans (hb y hy) hab
      · rw [List.pairwise_cons]
        exact ⟨hb, hbs⟩

theorem sortedDesc_sortArcs (l : List FstArc) : SortedDesc (sortArcs l) := by
  induction l with
  | nil => simp [sortArcs, SortedDesc]
  | cons a as ih => exact sortedDesc_insertArc a (sortArcs as) ih

theorem insertArc_eq_takeWhile_dropWhile (a : FstArc) (l : List FstArc) :
    insertArc a l =
      l.takeWhile (fun b => decide (arcLen a < arcLen b)) ++
        a :: l.dropWhile (fun b => decide (arcLen a < arcLen b)) := by
  induction l with
  | nil => simp [insertArc]
  | cons b bs ih =>
    by_cases h : arcLen a < arcLen b
    · simp [insertArc, h, List.takeWhile_cons, List.dropWhile_cons, ih]
    · simp [insertArc, h, List.takeWhile_cons, List.dropWhile_cons]

theorem mem_dropWhile_arcLen_le (n : Nat) (l : List FstArc) (h : SortedDesc l)
    (b : FstArc) (hb : b ∈ l.dropWhile (fun x => decide (n < arcLen x))) :
    arcLen b ≤ n := by
  induction l with
  | nil => simp at hb
  | cons x xs ih =>
    rw [SortedDesc, List.pairwise_cons] at h
    obtain ⟨hx, hxs⟩ := h
    by_cases hn : n < arcLen x
    · rw [List.dropWhile_cons] at hb
      simp only [hn, decide_eq_true_eq, if_pos] at hb
      exact ih hxs hb
    · rw [List.dropWhile_cons] at hb
      rw [if_neg (by simpa using hn)] at hb
      rcases List.mem_cons.mp hb with rfl | hb
      · omega
      · exact le_trans (hx b hb) (by omega)

/-- The selection performed by `consume_input` — scan the stably
length-sorted arcs and take the first match — picks exactly the arc the
specification describes: the earliest matching arc of maximal input-label
length. -/
theorem find?_sortArcs (p : FstArc → Bool) (l : List FstArc) :
    (sortArcs l).find? p = specPick p l := by
  induction l with
  | nil => simp [sortArcs, specPick]
  | cons a as ih =>
    have hs := sortedDesc_sortArcs as
    rw [sortArcs, insertArc_eq_takeWhile_dropWhile, List.find?_append]
    set q : FstArc → Bool := fun b => decide (arcLen a < arcLen b) with hq
    have hL : (sortArcs as).find? p =
        Option.or (((sortArcs as).takeWhile q).find? p)
          (((sortArcs as).dropWhile q).find? p) := by
      conv_lhs => rw [← List.takeWhile_append_dropWhile q (sortArcs as)]
      exact List.find?_append
    cases hT : ((sortArcs as).takeWhile q).find? p with
    | some c =>
      have hcq : q c = true := List.mem_takeWhile_imp (List.mem_of_find?_eq_some hT)
      have hac : arcLen a < arcLen c := by simpa [hq] using hcq
      have hspec : specPick p as = some c := by
        rw [← ih, hL, hT]
        rfl
      rw [specPick, hspec]
      have : ¬ (arcLen c ≤ arcLen a) := by omega
      simp [hT, this]
    | none =>
      have hspec : specPick p as = ((sortArcs as).dropWhile q).find? p := by
        rw [← ih, hL, hT]
        rfl
      rw [specPick, hspec]
      cases hpa : p a with
      | true =>
        simp only [hT, Option.none_or, List.find?_cons, hpa]
        cases hD : ((sortArcs as).dropWhile q).find? p with
        | none => rfl
        | some b =>
          have hb : arcLen b ≤ arcLen a := by
            refine mem_dropWhile_arcLen_le (arcLen a) (sortArcs as) hs b ?_
            exact List.mem_of_find?_eq_some hD
          simp [hb]
      | false =>
        simp only [hT, Option.none_or, List.find?_cons, hpa]
        cases hD : ((sortArcs as).dropWhile q).find? p with
        | none => rfl
        | some b => simp [hpa]

/-- The simulation loop written from the specification's words, identical
in shape to `consumeLoop` but selecting the arc with `specPick`. -/
def specConsumeLoop (t : Transducer) (inp : List Nat) :
    Nat → FstState → Nat → List Nat → ConsumeResult
  | 0, _, _, _ => .err
  | fuel + 1, st, i, out =>
    if i = inp.length then .ok out
    else
      match specPick (arcMatches inp i) st.arcs with
      | none => .invalidInput
      | some a =>
        match t.states[a.nextstate]? with
        | none => .err
        | some st2 => specConsumeLoop t inp fuel st2 (a.ilabel.length + i) (arcOutput out a)

/-- The specification's simulation semantics: start at state 0, cursor 0,
empty output, and iterate `specPick` steps. -/
def specConsume (t : Transducer) (inp : List Nat) : ConsumeResult :=
  match t.states[0]? with
  | none => .err
  | some st0 => specConsumeLoop t inp (inp.length + 1) st0 0 []

theorem consumeLoop_eq_specConsumeLoop (t : Transducer) (inp : List Nat)
    (fuel : Nat) (st : FstState) (i : Nat) (out : List Nat) :
    consumeLoop t inp fuel st i out = specConsumeLoop t inp fuel st i out := by
  induction fuel generalizing st i out with
  | zero => rfl
  | succ n ih =>
    rw [consumeLoop, specConsumeLoop]
    by_cases hend : i = inp.length
    · simp [hend]
    · simp only [hend, if_false]
      rw [findArc, find?_sortArcs]
      cases specPick (arcMatches inp i) st.arcs with
      | none => rfl
      | some a =>
        show (match t.states[a.nextstate]? with
          | none => ConsumeResult.err
          | some st2 =>
            consumeLoop t inp n st2 (a.ilabel.length + i) (arcOutput out a)) =
          (match t.states[a.nextstate]? with
          | none => ConsumeResult.err
          | some st2 =>
            specConsumeLoop t inp n st2 (a.ilabel.length + i) (arcOutput out a))
        cases t.states[a.nextstate]? with
        | none => rfl
        | some st2 => exact ih st2 (a.ilabel.length + i) (arcOutput out a)

/-- C1: `consume_input` starts at state 0 with the cursor at 0 and
repeatedly takes, among the arcs of the current state whose input label is
a prefix of the remaining input, the one with the longest input label; it
advances the cursor by that label's length, appends the arc's output label
to the output (dropping it when it is exactly `[EPSILON]`), moves to the
destination state, returns the accumulated output when the cursor reaches
the end of the input, and fails with the invalid-input error as soon as no
arc of the current state matches — i.e. it coincides with the
specification's simulation semantics `specConsume` on every transducer and
every input word. -/
theorem consume_input_eq_specConsume (t : Transducer) (inp : List Nat) :
    t.consume_input inp = specConsume t inp := by
  rw [Transducer.consume_input, specConsume]
  cases t.states[0]? with
  | none => rfl
  | some st0 => exact consumeLoop_eq_specConsumeLoop t inp _ st0 0 []

/-- C10: on the empty input word, `consume_input` performs zero loop
iterations and returns the empty output for every transducer (state 0
always exists by the class invariant), never failing. -/
theorem consume_input_nil (t : Transducer) : t.consume_input [] = .ok [] := by
  rw [Transducer.consume_input]
  rw [List.getElem?_eq_getElem t.states_ne]
  rfl

/-! ## Text format: `Transducer.save` / `Transducer.load`

The file format (§6 of the spec) is modelled at the level of parsed lines:
an arc line `src\tdst\tin\tout` with the comma-separated integer lists
already decoded, or a final-state line holding a single state index.  The
decimal rendering/parsing of the integers is a bijection and is not
modelled.  `save` writes, for every state (initial states first, Python's
stable sort by the `initial` attribute), one line per arc — the output
label collapsed to the single integer `EPSILON` when it is empty
(`if not otext`) — followed by the state index when the state is final.
Formatting an arc whose input label is empty raises `IndexError`
(`itext[0]`), hence the `Option`.  `load` replays arc lines through
`add_arc` (extending the alphabet `I`) and marks final states through
`__getitem__`, which raises `IndexError` when the state does not exist
yet. -/

/-- One parsed line of the text format. -/
inductive TLine where
  | arcL (src dst : Nat) (ilabel olabel : List Nat)
  | finalL (s : Nat)
deriving DecidableEq, Repr

/-- The output label as written by `save`: an empty output label is written
as the single integer `EPSILON`. -/
def encodeOut (o : List Nat) : List Nat := if o = [] then [EPSILON] else o

/-- The line `save` writes for one arc of the state whose `stateid` is
`sid`; `none` when the input label is empty (`itext[0]` raises). -/
def arcLine (sid : Nat) (a : FstArc) : Option TLine :=
  match a.ilabel with
  | [] => none
  | _ :: _ => some (.arcL sid a.nextstate a.ilabel (encodeOut a.olabel))

/-- The arc lines of one state, in arc-list order. -/
def arcLines (sid : Nat) : List FstArc → Option (List TLine)
  | [] => some []
  | a :: as =>
    match arcLine sid a with
    | none => none
    | some l =>
      match arcLines sid as with
      | none => none
      | some ls => some (l :: ls)

/-- All lines `save` writes for one state: its arc lines, then its index if
it is final. -/
def stateLines (st : FstState) : Option (List TLine) :=
  match arcLines st.stateid st.arcs with
  | none => none
  | some ls => some (ls ++ if st.final then [.finalL st.stateid] else [])

/-- `sorted(self.states, key=attrgetter('initial'), reverse=True)`:
Python's stable sort brings the initial states first, keeping the original
order inside each group. -/
def saveStatesOrder (t : Transducer) : List FstState :=
  t.states.filter (fun st => st.initial) ++ t.states.filter (fun st => !st.initial)

/-- The lines of a list of states, concatenated. -/
def saveLinesAux : List FstState → Option (List TLine)
  | [] => some []
  | st :: sts =>
    match stateLines st with
    | none => none
    | some g =>
      match saveLinesAux sts with
      | none => none
      | some ls => some (g ++ ls)

/-- `Transducer.save`, as the list of lines written to the file. -/
def saveLines (t : Transducer) : Option (List TLine) :=
  saveLinesAux (saveStatesOrder t)

/-- Processing of one line by `Transducer.load`. -/
def loadLine (t : Transducer) : TLine → Option Transducer
  | .arcL s d il ol =>
    some { t.add_arc s d il ol with I := t.I ∪ il.toFinset }
  | .finalL k =>
    match t.states[k]? with
    | none => none
    | some _ =>
      some { states := modifyIdx t.states k (fun st => { st with final := true }),
             I := t.I,
             states_ne := by rw [modifyIdx_length]; exact t.states_ne }

/-- The line loop of `Transducer.load`. -/
def loadLines : Transducer → List TLine → Option Transducer
  | t, [] => some t
  | t, l :: ls =>
    match loadLine t l with
    | none => none
    | some t1 => loadLines t1 ls

/-- `Transducer.load` on a fresh transducer, as used by the CLI drivers. -/
def Transducer.load (ls : List TLine) : Option Transducer :=
  loadLines Transducer.init ls

/-! ### Structural lemmas about `add_arc` and `load` -/

/-- The arcs leaving state `j` (empty when the state does not exist). -/
def arcsOfOpt (o : Option FstState) : List FstArc := o.elim [] FstState.arcs

def arcsAt (t : Transducer) (j : Nat) : List FstArc := arcsOfOpt t.states[j]?

theorem arcsOfOpt_padStates (sts : List FstState) (n j : Nat) :
    arcsOfOpt (padStates sts n)[j]? = arcsOfOpt sts[j]? := by
  rw [getElem?_padStates]
  by_cases h : j < sts.length
  · simp [h]
  · rw [if_neg h]
    rw [List.getElem?_eq_none (by omega)]
    by_cases h2 : j < n + 1 <;> simp [h2, arcsOfOpt, mkState]

theorem arcsAt_add_arc (t : Transducer) (src dst : Nat) (inp out : List Nat) (j : Nat) :
    arcsAt (t.add_arc src dst inp out) j =
      arcsAt t j ++
        if j = src then
          [{ srcstate := src, nextstate := dst, ilabel := inp, olabel := out }]
        else [] := by
  unfold arcsAt Transducer.add_arc
  simp only [getElem?_modifyIdx]
  by_cases h : j = src
  · subst h
    have hlt : j < (padStates (padStates t.states j) dst).length := by
      simp only [padStates_length]
      omega
    have hpad : arcsOfOpt (padStates (padStates t.states j) dst)[j]? =
        arcsOfOpt t.states[j]? :=
      (arcsOfOpt_padStates (padStates t.states j) dst j).trans
        (arcsOfOpt_padStates t.states j j)
    rw [if_pos rfl, List.getElem?_eq_getElem hlt]
    rw [List.getElem?_eq_getElem hlt] at hpad
    simp only [Option.map_some', arcsOfOpt, Option.elim] at hpad ⊢
    rw [hpad]
    simp
  · simp only [if_neg h]
    rw [arcsOfOpt_padStates, arcsOfOpt_padStates]
    simp

theorem length_add_arc (t : Transducer) (src dst : Nat) (inp out : List Nat) :
    (t.add_arc src dst inp out).states.length =
      max (max t.states.length (src + 1)) (dst + 1) := by
  unfold Transducer.add_arc
  simp only [modifyIdx_length, padStates_length]

/-- Every arc endpoint names an existing state. -/
def wfArcs (t : Transducer) : Prop :=
  ∀ j, ∀ a ∈ arcsAt t j, a.nextstate < t.states.length

theorem wfArcs_add_arc (t : Transducer) (src dst : Nat) (inp out : List Nat)
    (h : wfArcs t) : wfArcs (t.add_arc src dst inp out) := by
  intro j a ha
  rw [arcsAt_add_arc] at ha
  rw [length_add_arc]
  rcases List.mem_append.mp ha with ha | ha
  · have := h j a ha
    omega
  · by_cases hj : j = src
    · rw [if_pos hj] at ha
      simp only [List.mem_singleton] at ha
      subst ha
      simp
    · rw [if_neg hj] at ha
      simp at ha

theorem arcsAt_init (j : Nat) : arcsAt Transducer.init j = [] := by
  unfold arcsAt Transducer.init
  cases j with
  | zero => rfl
  | succ n => simp [arcsOfOpt]

/-- The arcs contributed to state `j` by a list of lines, in order. -/
def lineArcs (j : Nat) : List TLine → List FstArc
  | [] => []
  | .arcL s d il ol :: ls =>
    (if s = j then [{ srcstate := s, nextstate := d, ilabel := il, olabel := ol }] else [])
      ++ lineArcs j ls
  | .finalL _ :: ls => lineArcs j ls

theorem lineArcs_append (j : Nat) (l1 l2 : List TLine) :
    lineArcs j (l1 ++ l2) = lineArcs j l1 ++ lineArcs j l2 := by
  induction l1 with
  | nil => rfl
  | cons x xs ih =>
    cases x with
    | arcL s d il ol => simp [lineArcs, ih]
    | finalL s => simp [lineArcs, ih]

theorem arcsAt_loadLine_arcL (t t1 : Transducer) (s d : Nat) (il ol : List Nat)
    (h : loadLine t (.arcL s d il ol) = some t1) (j : Nat) :
    arcsAt t1 j = arcsAt t j ++
      (if s = j then
        [{ srcstate := s, nextstate := d, ilabel := il, olabel := ol }] else []) := by
  rw [loadLine] at h
  have ht1 : t1.states = (t.add_arc s d il ol).states := by
    cases h' : t.add_arc s d il ol with
    | mk sts i ne =>
      rw [h'] at h
      simp at h
      rw [← h]
  have : arcsAt t1 j = arcsAt (t.add_arc s d il ol) j := by
    unfold arcsAt
    rw [ht1]
  rw [this, arcsAt_add_arc]
  by_cases hj : j = s
  · subst hj
    simp
  · rw [if_neg hj, if_neg (fun hh => hj hh.symm)]

theorem arcsAt_loadLine_finalL (t t1 : Transducer) (k : Nat)
    (h : loadLine t (.finalL k) = some t1) (j : Nat) :
    arcsAt t1 j = arcsAt t j ∧ t1.states.length = t.states.length := by
  rw [loadLine] at h
  cases hk : t.states[k]? with
  | none => rw [hk] at h; exact absurd h (by simp)
  | some st =>
    rw [hk] at h
    simp at h
    constructor
    · unfold arcsAt
      rw [← h]
      simp only [getElem?_modifyIdx]
      by_cases hj : j = k
      · subst hj
        rw [if_pos rfl, hk]
        rfl
      · rw [if_neg hj]
    · rw [← h]
      simp [modifyIdx_length]

theorem arcsAt_loadLines (ls : List TLine) :
    ∀ (t0 u : Transducer), loadLines t0 ls = some u →
    ∀ j, arcsAt u j = arcsAt t0 j ++ lineArcs j ls := by
  induction ls with
  | nil =>
    intro t0 u h j
    rw [loadLines] at h
    simp at h
    rw [← h, lineArcs]
    simp
  | cons l rest ih =>
    intro t0 u h j
    rw [loadLines] at h
    cases hl : loadLine t0 l with
    | none => rw [hl] at h; exact absurd h (by simp)
    | some t1 =>
      rw [hl] at h
      cases l with
      | arcL s d il ol =>
        rw [ih t1 u h j, arcsAt_loadLine_arcL t0 t1 s d il ol hl j, lineArcs]
        simp
      | finalL k =>
        rw [ih t1 u h j, (arcsAt_loadLine_finalL t0 t1 k hl j).1, lineArcs]

theorem length_loadLine_le (t t1 : Transducer) (l : TLine)
    (h : loadLine t l = some t1) : t.states.length ≤ t1.states.length := by
  cases l with
  | arcL s d il ol =>
    rw [loadLine] at h
    have : t1.states = (t.add_arc s d il ol).states := by
      cases h' : t.add_arc s d il ol with
      | mk sts i ne =>
        rw [h'] at h
        simp at h
        rw [← h]
    rw [this, length_add_arc]
    omega
  | finalL k => exact le_of_eq (arcsAt_loadLine_finalL t t1 k h 0).2.symm

theorem wfArcs_loadLine (t t1 : Transducer) (l : TLine)
    (h : loadLine t l = some t1) (hw : wfArcs t) : wfArcs t1 := by
  cases l with
  | arcL s d il ol =>
    intro j a ha
    rw [arcsAt_loadLine_arcL t t1 s d il ol h j] at ha
    rw [loadLine] at h
    have ht1 : t1.states = (t.add_arc s d il ol).states := by
      cases h' : t.add_arc s d il ol with
      | mk sts i ne =>
        rw [h'] at h
        simp at h
        rw [← h]
    rw [ht1, length_add_arc]
    rcases List.mem_append.mp ha with ha | ha
    · have := hw j a ha
      omega
    · by_cases hj : s = j
      · rw [if_pos hj] at ha
        simp only [List.mem_singleton] at ha
        subst ha
        simp
      · rw [if_neg hj] at ha
        simp at ha
  | finalL k =>
    intro j a ha
    obtain ⟨harcs, hlen⟩ := arcsAt_loadLine_finalL t t1 k h j
    rw [harcs] at ha
    rw [hlen]
    exact hw j a ha

theorem wfArcs_loadLines (ls : List TLine) :
    ∀ (t0 u : Transducer), loadLines t0 ls = some u → wfArcs t0 → wfArcs u := by
  induction ls with
  | nil =>
    intro t0 u h hw
    rw [loadLines] at h
    simp at h
    rw [← h]
    exact hw
  | cons l rest ih =>
    intro t0 u h hw
    rw [loadLines] at h
    cases hl : loadLine t0 l with
    | none => rw [hl] at h; exact absurd h (by simp)
    | some t1 => exact ih t1 u (by rw [hl] at h; exact h) (wfArcs_loadLine t0 t1 l hl hw)

theorem wfArcs_init : wfArcs Transducer.init := by
  intro j a ha
  rw [arcsAt_init] at ha
  exact absurd ha (List.not_mem_nil a)

/-! ### From a saved transducer back to its arcs -/

/-- The arc reconstructed by `load` from the line `save` wrote for an arc
of the state at index `j`: the recorded source is the state's `stateid`,
and an empty output label has been collapsed to `[EPSILON]`. -/
def normArc (j : Nat) (a : FstArc) : FstArc :=
  { srcstate := j, nextstate := a.nextstate, ilabel := a.ilabel,
    olabel := encodeOut a.olabel }

theorem lineArcs_arcLines (sid : Nat) (as : List FstArc) :
    ∀ (ls : List TLine), arcLines sid as = some ls →
    ∀ j, lineArcs j ls = if sid = j then as.map (normArc sid) else [] := by
  induction as with
  | nil =>
    intro ls h j
    rw [arcLines] at h
    simp at h
    subst h
    simp [lineArcs]
  | cons a rest ih =>
    intro ls h j
    rw [arcLines] at h
    cases hl : arcLine sid a with
    | none => rw [hl] at h; exact absurd h (by simp)
    | some l =>
      rw [hl] at h
      cases hrest : arcLines sid rest with
      | none => rw [hrest] at h; exact absurd h (by simp)
      | some ls' =>
        rw [hrest] at h
        simp at h
        rw [arcLine] at hl
        cases hil : a.ilabel with
        | nil => rw [hil] at hl; exact absurd hl (by simp)
        | cons x xs =>
          rw [hil] at hl
          simp at hl
          rw [← h, ← hl, lineArcs, ih ls' hrest j]
          by_cases hj : sid = j
          · subst hj
            simp [normArc, hil]
          · simp [hj]

theorem lineArcs_stateLines (st : FstState) (g : List TLine)
    (h : stateLines st = some g) (j : Nat) :
    lineArcs j g = if st.stateid = j then st.arcs.map (normArc j) else [] := by
  rw [stateLines] at h
  cases hls : arcLines st.stateid st.arcs with
  | none => rw [hls] at h; exact absurd h (by simp)
  | some ls =>
    rw [hls] at h
    simp at h
    rw [← h, lineArcs_append, lineArcs_arcLines st.stateid st.arcs ls hls j]
    have hfin : lineArcs j (if st.final then [TLine.finalL st.stateid] else []) = [] := by
      by_cases hf : st.final <;> simp [hf, lineArcs]
    rw [hfin]
    by_cases hj : st.stateid = j
    · subst hj
      simp
    · simp [hj]

theorem lineArcs_saveLinesAux :
    ∀ (sts : List FstState) (off : Nat) (ls : List TLine),
      (∀ (k : Nat) (st : FstState), sts[k]? = some st → st.stateid = off + k) →
      saveLinesAux sts = some ls →
      ∀ j, lineArcs j ls =
        if off ≤ j then (arcsOfOpt sts[j - off]?).map (normArc j) else [] := by
  intro sts
  induction sts with
  | nil =>
    intro off ls hids h j
    rw [saveLinesAux] at h
    simp at h
    subst h
    by_cases hoff : off ≤ j <;> simp [hoff, lineArcs, arcsOfOpt]
  | cons st rest ih =>
    intro off ls hids h j
    rw [saveLinesAux] at h
    cases hg : stateLines st with
    | none => rw [hg] at h; exact absurd h (by simp)
    | some g =>
      rw [hg] at h
      cases hrest : saveLinesAux rest with
      | none => rw [hrest] at h; exact absurd h (by simp)
      | some ls' =>
        rw [hrest] at h
        simp at h
        have hid0 : st.stateid = off := by
          have := hids 0 st (by simp)
          omega
        have hids' : ∀ (k : Nat) (st' : FstState), rest[k]? = some st' →
            st'.stateid = (off + 1) + k := by
          intro k st' hk
          have := hids (k + 1) st' (by simpa using hk)
          omega
        rw [← h, lineArcs_append, lineArcs_stateLines st g hg j,
          ih (off + 1) ls' hids' hrest j, hid0]
        rcases Nat.lt_trichotomy off j with hlt | heq | hgt
        · have h1 : ¬ (off = j) := by omega
          have h2 : off + 1 ≤ j := by omega
          have h3 : off ≤ j := by omega
          have h4 : j - off = (j - (off + 1)) + 1 := by omega
          simp only [h1, if_false, h2, if_true, h3, List.nil_append, h4]
          rw [List.getElem?_cons_succ]
        · subst heq
          have h2 : ¬ (off + 1 ≤ off) := by omega
          simp [h2, arcsOfOpt]
        · have h1 : ¬ (off = j) := by omega
          have h2 : ¬ (off + 1 ≤ j) := by omega
          have h3 : ¬ (off ≤ j) := by omega
          simp [h1, h2, h3]

/-- `stateid` equals the position in the state list (true for every
transducer the Python class can build: states are only ever created by the
constructor and the padding loop). -/
def StateIdsCanonical (t : Transducer) : Prop :=
  ∀ (k : Nat) (st : FstState), t.states[k]? = some st → st.stateid = k

/-- Exactly state 0 carries the `initial` flag (the constructor sets it;
nothing else ever does). -/
def InitialOnlyZero (t : Transducer) : Prop :=
  ∀ (k : Nat) (st : FstState), t.states[k]? = some st → st.initial = decide (k = 0)

/-- Decidable conjunction of the class invariants used by the round-trip
theorem. -/
def canonicalB (t : Transducer) : Bool :=
  (List.range t.states.length).all fun k =>
    match t.states[k]? with
    | none => false
    | some st =>
      (st.stateid == k && st.initial == decide (k = 0)) &&
        st.arcs.all (fun a => decide (a.nextstate < t.states.length))

theorem canonicalB_elim (t : Transducer) (h : canonicalB t = true) :
    StateIdsCanonical t ∧ InitialOnlyZero t ∧ wfArcs t := by
  rw [canonicalB, List.all_eq_true] at h
  have hof : ∀ (k : Nat) (st : FstState), t.states[k]? = some st →
      st.stateid = k ∧ st.initial = decide (k = 0) ∧
        ∀ a ∈ st.arcs, a.nextstate < t.states.length := by
    intro k st hk
    have hklt : k < t.states.length := by
      by_contra hge
      rw [List.getElem?_eq_none (by omega)] at hk
      exact absurd hk (by simp)
    have := h k (List.mem_range.mpr hklt)
    rw [hk] at this
    simp only [Bool.and_eq_true, beq_iff_eq, List.all_eq_true] at this
    refine ⟨this.1.1, this.1.2, fun a ha => ?_⟩
    have := this.2 a ha
    simpa using this
  refine ⟨fun k st hk => (hof k st hk).1, fun k st hk => (hof k st hk).2.1, ?_⟩
  intro j a ha
  unfold arcsAt at ha
  cases hj : t.states[j]? with
  | none => rw [hj] at ha; exact absurd ha (by simp [arcsOfOpt])
  | some st =>
    rw [hj] at ha
    exact (hof j st hj).2.2 a ha

theorem saveStatesOrder_eq (t : Transducer) (hinit : InitialOnlyZero t) :
    saveStatesOrder t = t.states := by
  unfold saveStatesOrder
  cases hsts : t.states with
  | nil => simp
  | cons s0 rest =>
    have h0 : s0.initial = true := by
      have := hinit 0 s0 (by rw [hsts]; simp)
      simpa using this
    have hr : ∀ st ∈ rest, st.initial = false := by
      intro st hst
      obtain ⟨k, hk, hkeq⟩ := List.getElem_of_mem hst
      have : t.states[k + 1]? = some st := by
        rw [hsts, List.getElem?_cons_succ, List.getElem?_eq_getElem hk, hkeq]
      have := hinit (k + 1) st this
      simpa using this
    have hfil1 : rest.filter (fun st => st.initial) = [] := by
      rw [List.filter_eq_nil]
      intro st hst
      simp [hr st hst]
    have hfil2 : rest.filter (fun st => !st.initial) = rest := by
      rw [List.filter_eq_self]
      intro st hst
      simp [hr st hst]
    simp [List.filter, h0, hfil1, hfil2]

theorem lineArcs_saveLines (t : Transducer) (hid : StateIdsCanonical t)
    (hinit : InitialOnlyZero t) (ls : List TLine) (h : saveLines t = some ls)
    (j : Nat) : lineArcs j ls = (arcsAt t j).map (normArc j) := by
  rw [saveLines, saveStatesOrder_eq t hinit] at h
  have hids : ∀ (k : Nat) (st : FstState), t.states[k]? = some st →
      st.stateid = 0 + k := by
    intro k st hk
    rw [Nat.zero_add]
    exact hid k st hk
  have := lineArcs_saveLinesAux t.states 0 ls hids h j
  rw [this, if_pos (Nat.zero_le j), Nat.sub_zero]
  rfl

/-! ### Simulation is invariant under the save/load arc normalisation -/

theorem arcLen_normArc (j : Nat) (a : FstArc) : arcLen (normArc j a) = arcLen a := rfl

theorem insertArc_map_normArc (s : Nat) (a : FstArc) (l : List FstArc) :
    insertArc (normArc s a) (l.map (normArc s)) = (insertArc a l).map (normArc s) := by
  induction l with
  | nil => rfl
  | cons b bs ih =>
    by_cases h : arcLen a < arcLen b
    · simp only [List.map_cons, insertArc, arcLen_normArc, h, if_pos, if_true]
      rw [ih]
    · simp only [List.map_cons, insertArc, arcLen_normArc, h, if_false]

theorem sortArcs_map_normArc (s : Nat) (l : List FstArc) :
    sortArcs (l.map (normArc s)) = (sortArcs l).map (normArc s) := by
  induction l with
  | nil => rfl
  | cons a as ih =>
    simp only [List.map_cons, sortArcs, ih]
    exact insertArc_map_normArc s a (sortArcs as)

theorem arcMatches_normArc (inp : List Nat) (i : Nat) (s : Nat) (a : FstArc) :
    arcMatches inp i (normArc s a) = arcMatches inp i a := rfl

theorem findArc_map_normArc (s : Nat) (l : List FstArc) (inp : List Nat) (i : Nat) :
    findArc (l.map (normArc s)) inp i = (findArc l inp i).map (normArc s) := by
  unfold findArc
  rw [sortArcs_map_normArc, List.find?_map]
  have : arcMatches inp i ∘ normArc s = arcMatches inp i := by
    funext a
    exact arcMatches_normArc inp i s a
  rw [this]

theorem mem_sortArcs (x : FstArc) (l : List FstArc) : x ∈ sortArcs l ↔ x ∈ l := by
  induction l with
  | nil => simp [sortArcs]
  | cons a as ih =>
    rw [sortArcs, mem_insertArc]
    simp [ih]

theorem arcOutput_normArc (out : List Nat) (s : Nat) (a : FstArc) :
    arcOutput out (normArc s a) = arcOutput out a := by
  unfold arcOutput normArc encodeOut
  by_cases h : a.olabel = []
  · have hne : ¬ (([] : List Nat) = [EPSILON]) := by simp
    simp [h, hne]
  · simp [h]

theorem consumeLoop_norm (t t2 : Transducer)
    (hrel : ∀ j, arcsAt t2 j = (arcsAt t j).map (normArc j))
    (hwf : wfArcs t) (hwf2 : wfArcs t2) (inp : List Nat) :
    ∀ (fuel s i : Nat) (out : List Nat) (hs : s < t.states.length)
      (hs2 : s < t2.states.length),
      consumeLoop t2 inp fuel (t2.states.get ⟨s, hs2⟩) i out =
        consumeLoop t inp fuel (t.states.get ⟨s, hs⟩) i out := by
  intro fuel
  induction fuel with
  | zero => intro s i out hs hs2; rfl
  | succ n ih =>
    intro s i out hs hs2
    rw [consumeLoop, consumeLoop]
    by_cases hend : i = inp.length
    · simp [hend]
    · simp only [hend, if_false]
      have h1 : arcsAt t s = (t.states.get ⟨s, hs⟩).arcs := by
        unfold arcsAt
        rw [List.getElem?_eq_getElem hs]
        rfl
      have h2 : arcsAt t2 s = (t2.states.get ⟨s, hs2⟩).arcs := by
        unfold arcsAt
        rw [List.getElem?_eq_getElem hs2]
        rfl
      have harcs : (t2.states.get ⟨s, hs2⟩).arcs =
          ((t.states.get ⟨s, hs⟩).arcs).map (normArc s) := by
        rw [← h1, ← h2, hrel]
      rw [harcs, findArc_map_normArc]
      cases hfind : findArc (t.states.get ⟨s, hs⟩).arcs inp i with
      | none => rfl
      | some a =>
        have hmem : a ∈ arcsAt t s := by
          rw [h1]
          exact (mem_sortArcs a _).mp (List.mem_of_find?_eq_some hfind)
        have hn : a.nextstate < t.states.length := hwf s a hmem
        have hmem2 : normArc s a ∈ arcsAt t2 s := by
          rw [hrel]
          exact List.mem_map_of_mem (normArc s) hmem
        have hn2 : a.nextstate < t2.states.length := hwf2 s (normArc s a) hmem2
        simp only [Option.map_some']
        show (match t2.states[a.nextstate]? with
          | none => ConsumeResult.err
          | some st2 => consumeLoop t2 inp n st2 (a.ilabel.length + i)
              (arcOutput out (normArc s a))) =
          (match t.states[a.nextstate]? with
          | none => ConsumeResult.err
          | some st2 => consumeLoop t inp n st2 (a.ilabel.length + i)
              (arcOutput out a))
        rw [List.getElem?_eq_getElem hn, List.getElem?_eq_getElem hn2,
          arcOutput_normArc]
        exact ih a.nextstate (a.ilabel.length + i) (arcOutput out a) hn hn2

theorem consume_input_norm (t t2 : Transducer)
    (hrel : ∀ j, arcsAt t2 j = (arcsAt t j).map (normArc j))
    (hwf : wfArcs t) (hwf2 : wfArcs t2) (inp : List Nat) :
    t2.consume_input inp = t.consume_input inp := by
  rw [Transducer.consume_input, Transducer.consume_input]
  rw [List.getElem?_eq_getElem t.states_ne, List.getElem?_eq_getElem t2.states_ne]
  exact consumeLoop_norm t t2 hrel hwf hwf2 inp (inp.length + 1) 0 0 []
    t.states_ne t2.states_ne

/-- C8 (amended): when saving succeeds and loading the saved lines
succeeds, the loaded transducer simulates identically: `consume_input`
agrees on every input word.  (Hypotheses `canonicalB`: state ids equal
positions, only state 0 is initial, arc endpoints exist — invariants of
every transducer the Python class builds.) -/
theorem save_load_roundtrip (t t2 : Transducer) (ls : List TLine)
    (hc : canonicalB t = true) (hs : saveLines t = some ls)
    (hl : Transducer.load ls = some t2) (inp : List Nat) :
    t2.consume_input inp = t.consume_input inp := by
  obtain ⟨hid, hinit, hwf⟩ := canonicalB_elim t hc
  have hrel : ∀ j, arcsAt t2 j = (arcsAt t j).map (normArc j) := by
    intro j
    rw [Transducer.load] at hl
    rw [arcsAt_loadLines ls Transducer.init t2 hl j, arcsAt_init,
      List.nil_append]
    exact lineArcs_saveLines t hid hinit ls hs j
  have hwf2 : wfArcs t2 := by
    rw [Transducer.load] at hl
    exact wfArcs_loadLines ls Transducer.init t2 hl wfArcs_init
  exact consume_input_norm t t2 hrel hwf hwf2 inp

/-- The transducer built by `add_arc(3, 0, [1], [2])` on a fresh
`Transducer()`: states 1 and 2 are padding states with no arcs. -/
def exBadT : Transducer := Transducer.init.add_arc 3 0 [1] [2]

/-- C8 counterexample: saving `exBadT` succeeds, but loading the saved text
fails — the final-state line for state 1 is read before any arc has created
state 1, so `load`'s `self[1].final = True` raises `IndexError` instead of
yielding a transducer. -/
theorem save_load_fails_exBadT :
    (Option.bind (saveLines exBadT) Transducer.load).isNone = true ∧
      (saveLines exBadT).isSome = true := by
  constructor
  · rfl
  · rfl

/-- A transducer for which the round trip succeeds. -/
def exGoodT : Transducer := Transducer.init.add_arc 0 0 [1] [2]

/-- The lines `save` writes for `exGoodT`. -/
def exGoodLines : List TLine := [TLine.arcL 0 0 [1] [2], TLine.finalL 0]

/-- The transducer `load` reconstructs from `exGoodLines`. -/
def exGoodT2 : Transducer := (Transducer.load exGoodLines).getD Transducer.init

/-- Witness for C8 (amended): a concrete round trip where every hypothesis
holds and the simulations agree. -/
theorem save_load_roundtrip_witness :
    exGoodT2.consume_input [1, 1] = exGoodT.consume_input [1, 1] :=
  save_load_roundtrip exGoodT exGoodT2 exGoodLines (by rfl) (by rfl) (by rfl) [1, 1]

/-! ## Observation tables (`_ObservationTable` of both learner modules)

Rows and columns are integer tuples; the table itself is a Python dict of
dicts: `self.ot[row][col]`.  Dicts are modelled as association lists with
first-occurrence lookup and in-place update; Python dict equality (`==`,
used by `is_closed`) compares the key/value mappings regardless of
insertion order. -/

/-- Words: Python tuples/lists of integers. -/
abbrev Word := List Nat

/-- First-occurrence lookup in an association list (Python `d[k]`,
`none` standing for `KeyError`). -/
def alGet {β : Type} : List (Word × β) → Word → Option β
  | [], _ => none
  | (k, v) :: rest, k' => if k' = k then some v else alGet rest k'

/-- In-place update of an association list (Python `d[k] = v`): replace the
first binding of `k`, or append a new binding. -/
def alSet {β : Type} : List (Word × β) → Word → β → List (Word × β)
  | [], k, v => [(k, v)]
  | (k0, v0) :: rest, k, v =>
    if k = k0 then (k0, v) :: rest else (k0, v0) :: alSet rest k v

theorem alGet_alSet {β : Type} (l : List (Word × β)) (k : Word) (v : β) (k' : Word) :
    alGet (alSet l k v) k' = if k' = k then some v else alGet l k' := by
  induction l with
  | nil =>
    by_cases h : k' = k <;> simp [alSet, alGet, h]
  | cons p rest ih =>
    obtain ⟨k0, v0⟩ := p
    by_cases hk : k = k0
    · subst hk
      by_cases h' : k' = k <;> simp [alSet, alGet, h']
    · rw [alSet, if_neg hk]
      by_cases h' : k' = k0
      · subst h'
        rw [alGet, if_pos rfl]
        rw [if_neg (fun hh => hk hh.symm), alGet, if_pos rfl]
      · rw [alGet, if_neg h', ih, alGet, if_neg h']

theorem alGet_mem {β : Type} (l : List (Word × β)) (k : Word) (v : β)
    (h : alGet l k = some v) : (k, v) ∈ l := by
  induction l with
  | nil => simp [alGet] at h
  | cons p rest ih =>
    obtain ⟨k0, v0⟩ := p
    rw [alGet] at h
    by_cases hk : k = k0
    · rw [if_pos hk] at h
      simp at h
      subst hk
      subst h
      exact List.mem_cons_self _ _
    · rw [if_neg hk] at h
      exact List.mem_cons_of_mem _ (ih h)

/-- A row of the table: a dict from columns to entries. -/
abbrev RowD := List (Word × Word)

/-- The two-level table dict. -/
abbrev OTable := List (Word × RowD)

/-- `_ObservationTable.__getitem__((row, col))`: returns the entry or
`None` on `KeyError`. -/
def otGet (tbl : OTable) (row col : Word) : Option Word :=
  match alGet tbl row with
  | none => none
  | some rd => alGet rd col

/-- `_ObservationTable.__setitem__((row, col), value)`: create the row dict
if missing, then set the cell. -/
def otSet (tbl : OTable) (row col : Word) (v : Word) : OTable :=
  match alGet tbl row with
  | none => alSet tbl row (alSet [] col v)
  | some rd => alSet tbl row (alSet rd col v)

theorem otGet_otSet (tbl : OTable) (row col : Word) (v : Word) (r c : Word) :
    otGet (otSet tbl row col v) r c =
      if r = row ∧ c = col then some v else otGet tbl r c := by
  unfold otGet otSet
  by_cases hr : r = row
  · subst hr
    cases hrow : alGet tbl r with
    | none =>
      by_cases hc : c = col
      · subst hc
        simp [alGet_alSet, hrow]
      · simp [alGet_alSet, hc, hrow, alGet]
    | some rd =>
      by_cases hc : c = col
      · subst hc
        simp [alGet_alSet, hrow]
      · simp [alGet_alSet, hc, hrow]
  · have hand : ¬ (r = row ∧ c = col) := fun h => hr h.1
    cases hrow : alGet tbl row with
    | none => simp [alGet_alSet, hr, hand]
    | some rd => simp [alGet_alSet, hr, hand]

/-- Python dict equality (`d1 == d2`): the same keys with the same values. -/
def pyDictEq (d1 d2 : RowD) : Bool :=
  d1.all (fun p => alGet d2 p.1 == some p.2) &&
    d2.all (fun p => alGet d1 p.1 == some p.2)

theorem pyDictEq_ext (d1 d2 : RowD) (h : pyDictEq d1 d2 = true) (c : Word) :
    alGet d1 c = alGet d2 c := by
  rw [pyDictEq, Bool.and_eq_true, List.all_eq_true, List.all_eq_true] at h
  obtain ⟨h1, h2⟩ := h
  cases hc : alGet d1 c with
  | some v =>
    have := h1 (c, v) (alGet_mem d1 c v hc)
    have h2 : alGet d2 c = some v := by simpa using this
    exact h2.symm
  | none =>
    cases hc2 : alGet d2 c with
    | none => rfl
    | some w =>
      have := h2 (c, w) (alGet_mem d2 c w hc2)
      simp at this
      rw [this] at hc
      exact absurd hc (by simp)

/-- `os.path.commonprefix([a, b])` on two integer sequences. -/
def commonPfx : Word → Word → Word
  | [], _ => []
  | _, [] => []
  | a :: as, b :: bs => if a = b then a :: commonPfx as bs else []

/-- `_remove_common_prefix(main, pre)` of `angluin_fst_lookahead.py`: the
suffix of `main` after its common prefix with `pre`. -/
def remove_common_pfx (main pre : Word) : Word :=
  main.drop (commonPfx main pre).length

/-- The value `_fill_ot_entry` stores in the cell `(row, col)`: the output
for `row ++ col` with the common prefix of the outputs for `row` and
`row ++ col` stripped. -/
def fillValue (mq : Word → Word) (row col : Word) : Word :=
  (mq (row ++ col)).drop (commonPfx (mq row) (mq (row ++ col))).length

/-- The Mealy learner's observation table (`_ObservationTable` of
`angluin_fst.py`). -/
structure OTM where
  table : OTable
  access_strings : List Word
  transitions : List Word
  dist_strings : List Word
  equiv_classes : List (Word × Word)
deriving DecidableEq, Repr

/-- The lookahead learner's observation table (`_ObservationTable` of
`angluin_fst_lookahead.py`).  Python keeps `lookaheads` in a `set()` whose
iteration order is implementation defined; it is modelled as the
duplicate-free list in insertion order. -/
structure OTL where
  table : OTable
  access_strings : List Word
  transitions : List Word
  dist_strings : List Word
  lookaheads : List (Word × Word × Word)
  equiv_classes : List (Word × Word)
deriving DecidableEq, Repr

/-- `MealyMachineLearner._fill_ot_entry(row, col)`: query the oracle on the
row and on row ++ col, and store the suffix of the second output after
their common prefix. -/
def fill_ot_entryM (mq : Word → Word) (ot : OTM) (row col : Word) : OTM :=
  let pfx := mq row
  let full_output := mq (row ++ col)
  let common_pfx_len := (commonPfx pfx full_output).length
  { ot with table := otSet ot.table row col (full_output.drop common_pfx_len) }

/-- `TransducerLearner._fill_ot_entry(row, col)` — textually identical to
the Mealy learner's. -/
def fill_ot_entryL (mq : Word → Word) (ot : OTL) (row col : Word) : OTL :=
  let pfx := mq row
  let full_output := mq (row ++ col)
  let pfx_len := (commonPfx pfx full_output).length
  { ot with table := otSet ot.table row col (full_output.drop pfx_len) }

/-- One call of `membership_query`, threaded through a trace of the words
passed to the oracle. -/
def callMQ (mq : Word → Word) (log : List Word) (w : Word) : Word × List Word :=
  (mq w, log ++ [w])

/-- `_fill_ot_entry` with its oracle calls instrumented: the same
computation as `fill_ot_entryM`, plus the list of membership queries
issued, in order. -/
def fill_ot_entry_tracedM (mq : Word → Word) (ot : OTM) (row col : Word) :
    OTM × List Word :=
  let r1 := callMQ mq [] row
  let r2 := callMQ mq r1.2 (row ++ col)
  ({ ot with table := otSet ot.table row col (r2.1.drop (commonPfx r1.1 r2.1).length) },
    r2.2)

/-- The lookahead learner's `_fill_ot_entry`, instrumented identically. -/
def fill_ot_entry_tracedL (mq : Word → Word) (ot : OTL) (row col : Word) :
    OTL × List Word :=
  let r1 := callMQ mq [] row
  let r2 := callMQ mq r1.2 (row ++ col)
  ({ ot with table := otSet ot.table row col (r2.1.drop (commonPfx r1.1 r2.1).length) },
    r2.2)

/-- Identity membership oracle, used for concrete checks. -/
def mqId : Word → Word := fun w => w

/-- An empty Mealy observation table. -/
def otmEmpty : OTM :=
  { table := [], access_strings := [], transitions := [], dist_strings := [],
    equiv_classes := [] }

/-- An empty lookahead observation table. -/
def otlEmpty : OTL :=
  { table := [], access_strings := [], transitions := [], dist_strings := [],
    lookaheads := [], equiv_classes := [] }

/-- C9 counterexample: a single fill operation issues two membership
queries, not one — `_fill_ot_entry` calls `membership_query(row)` and then
`membership_query(row + col)`, so filling cell `([], [1])` sends the two
words `[]` and `[1]` to the oracle. -/
theorem fill_ot_entry_not_one_query :
    (fill_ot_entry_tracedM mqId otmEmpty [] [1]).2 = [[], [1]] ∧
      (fill_ot_entry_tracedM mqId otmEmpty [] [1]).2.length = 2 := by
  constructor
  · rfl
  · rfl

/-- C9 (amended): each fill operation of either learner issues exactly two
membership queries — one on the row and one on the row extended by the
column — passing both words directly to the oracle on every call (no
cache is consulted or maintained), and computes the same table update as
the untraced fill. -/
theorem fill_ot_entry_two_queries (mq : Word → Word) (otm : OTM) (otl : OTL)
    (row col : Word) :
    (fill_ot_entry_tracedM mq otm row col).2 = [row, row ++ col] ∧
    (fill_ot_entry_tracedM mq otm row col).1 = fill_ot_entryM mq otm row col ∧
    (fill_ot_entry_tracedL mq otl row col).2 = [row, row ++ col] ∧
    (fill_ot_entry_tracedL mq otl row col).1 = fill_ot_entryL mq otl row col := by
  refine ⟨rfl, rfl, rfl, rfl⟩

/-! ## Closing the table: `_close_ot` (both learners)

`_close_ot(escaping_str)` appends the escaping row to `access_strings`,
and for every alphabet symbol appends the one-symbol extension to
`transitions` and fills it on every distinguishing suffix.  The escaping
row is *not* removed from `transitions`. -/

/-- The body of `_close_ot`'s `for i in self.I` loop (Mealy learner). -/
def closeStepM (mq : Word → Word) (esc : Word) (acc : OTM) (i : Nat) : OTM :=
  let acc1 := { acc with transitions := acc.transitions ++ [esc ++ [i]] }
  acc1.dist_strings.foldl (fun a d => fill_ot_entryM mq a (esc ++ [i]) d) acc1

/-- `MealyMachineLearner._close_ot(escaping_str)`. -/
def close_otM (mq : Word → Word) (I : List Nat) (ot : OTM) (esc : Word) : OTM :=
  I.foldl (closeStepM mq esc)
    { ot with access_strings := ot.access_strings ++ [esc] }

/-- The body of `_close_ot`'s loop (lookahead learner, textually identical). -/
def closeStepL (mq : Word → Word) (esc : Word) (acc : OTL) (i : Nat) : OTL :=
  let acc1 := { acc with transitions := acc.transitions ++ [esc ++ [i]] }
  acc1.dist_strings.foldl (fun a d => fill_ot_entryL mq a (esc ++ [i]) d) acc1

/-- `TransducerLearner._close_ot(escaping_str)`. -/
def close_otL (mq : Word → Word) (I : List Nat) (ot : OTL) (esc : Word) : OTL :=
  I.foldl (closeStepL mq esc)
    { ot with access_strings := ot.access_strings ++ [esc] }

theorem fillFoldM_spec (mq : Word → Word) (r : Word) (ds : List Word) :
    ∀ (acc : OTM),
      ((ds.foldl (fun a d => fill_ot_entryM mq a r d) acc).access_strings
          = acc.access_strings) ∧
      ((ds.foldl (fun a d => fill_ot_entryM mq a r d) acc).transitions
          = acc.transitions) ∧
      ((ds.foldl (fun a d => fill_ot_entryM mq a r d) acc).dist_strings
          = acc.dist_strings) ∧
      ((ds.foldl (fun a d => fill_ot_entryM mq a r d) acc).equiv_classes
          = acc.equiv_classes) ∧
      (∀ r' c, otGet ((ds.foldl (fun a d => fill_ot_entryM mq a r d) acc).table) r' c =
        if r' = r ∧ c ∈ ds then some (fillValue mq r c) else otGet acc.table r' c) := by
  induction ds with
  | nil =>
    intro acc
    refine ⟨rfl, rfl, rfl, rfl, fun r' c => ?_⟩
    simp
  | cons d ds' ih =>
    intro acc
    have step : ∀ (a : OTM),
        fill_ot_entryM mq a r d =
          { a with table := otSet a.table r d (fillValue mq r d) } := fun a => rfl
    obtain ⟨h1, h2, h3, h4, h5⟩ := ih (fill_ot_entryM mq acc r d)
    rw [List.foldl_cons]
    refine ⟨by rw [h1, step], by rw [h2, step], by rw [h3, step], by rw [h4, step],
      fun r' c => ?_⟩
    rw [h5 r' c, step, otGet_otSet]
    by_cases hr : r' = r
    · subst hr
      by_cases hds : c ∈ ds'
      · simp [hds]
      · by_cases hd : c = d
        · subst hd
          simp [hds]
        · simp [hds, hd]
    · simp [hr]

theorem fillFoldL_spec (mq : Word → Word) (r : Word) (ds : List Word) :
    ∀ (acc : OTL),
      ((ds.foldl (fun a d => fill_ot_entryL mq a r d) acc).access_strings
          = acc.access_strings) ∧
      ((ds.foldl (fun a d => fill_ot_entryL mq a r d) acc).transitions
          = acc.transitions) ∧
      ((ds.foldl (fun a d => fill_ot_entryL mq a r d) acc).dist_strings
          = acc.dist_strings) ∧
      ((ds.foldl (fun a d => fill_ot_entryL mq a r d) acc).lookaheads
          = acc.lookaheads) ∧
      ((ds.foldl (fun a d => fill_ot_entryL mq a r d) acc).equiv_classes
          = acc.equiv_classes) ∧
      (∀ r' c, otGet ((ds.foldl (fun a d => fill_ot_entryL mq a r d) acc).table) r' c =
        if r' = r ∧ c ∈ ds then some (fillValue mq r c) else otGet acc.table r' c) := by
  induction ds with
  | nil =>
    intro acc
    refine ⟨rfl, rfl, rfl, rfl, rfl, fun r' c => ?_⟩
    simp
  | cons d ds' ih =>
    intro acc
    have step : ∀ (a : OTL),
        fill_ot_entryL mq a r d =
          { a with table := otSet a.table r d (fillValue mq r d) } := fun a => rfl
    obtain ⟨h1, h2, h3, h4, h5, h6⟩ := ih (fill_ot_entryL mq acc r d)
    rw [List.foldl_cons]
    refine ⟨by rw [h1, step], by rw [h2, step], by rw [h3, step], by rw [h4, step],
      by rw [h5, step], fun r' c => ?_⟩
    rw [h6 r' c, step, otGet_otSet]
    by_cases hr : r' = r
    · subst hr
      by_cases hds : c ∈ ds'
      · simp [hds]
      · by_cases hd : c = d
        · subst hd
          simp [hds]
        · simp [hds, hd]
    · simp [hr]

theorem closeStepM_spec (mq : Word → Word) (esc : Word) (acc : OTM) (i : Nat) :
    (closeStepM mq esc acc i).access_strings = acc.access_strings ∧
    (closeStepM mq esc acc i).transitions = acc.transitions ++ [esc ++ [i]] ∧
    (closeStepM mq esc acc i).dist_strings = acc.dist_strings ∧
    (closeStepM mq esc acc i).equiv_classes = acc.equiv_classes ∧
    ∀ r' c, otGet (closeStepM mq esc acc i).table r' c =
      if r' = esc ++ [i] ∧ c ∈ acc.dist_strings
      then some (fillValue mq (esc ++ [i]) c) else otGet acc.table r' c := by
  obtain ⟨h1, h2, h3, h4, h5⟩ := fillFoldM_spec mq (esc ++ [i]) acc.dist_strings
    { acc with transitions := acc.transitions ++ [esc ++ [i]] }
  refine ⟨h1, h2, h3, h4, fun r' c => ?_⟩
  rw [closeStepM]
  rw [h5 r' c]

theorem closeStepL_spec (mq : Word → Word) (esc : Word) (acc : OTL) (i : Nat) :
    (closeStepL mq esc acc i).access_strings = acc.access_strings ∧
    (closeStepL mq esc acc i).transitions = acc.transitions ++ [esc ++ [i]] ∧
    (closeStepL mq esc acc i).dist_strings = acc.dist_strings ∧
    (closeStepL mq esc acc i).lookaheads = acc.lookaheads ∧
    (closeStepL mq esc acc i).equiv_classes = acc.equiv_classes ∧
    ∀ r' c, otGet (closeStepL mq esc acc i).table r' c =
      if r' = esc ++ [i] ∧ c ∈ acc.dist_strings
      then some (fillValue mq (esc ++ [i]) c) else otGet acc.table r' c := by
  obtain ⟨h1, h2, h3, h4, h5, h6⟩ := fillFoldL_spec mq (esc ++ [i]) acc.dist_strings
    { acc with transitions := acc.transitions ++ [esc ++ [i]] }
  refine ⟨h1, h2, h3, h4, h5, fun r' c => ?_⟩
  rw [closeStepL]
  rw [h6 r' c]

theorem closeFoldM_spec (mq : Word → Word) (esc : Word) (I : List Nat) :
    ∀ (acc : OTM),
      (I.foldl (closeStepM mq esc) acc).access_strings = acc.access_strings ∧
      (I.foldl (closeStepM mq esc) acc).transitions =
        acc.transitions ++ I.map (fun i => esc ++ [i]) ∧
      (I.foldl (closeStepM mq esc) acc).dist_strings = acc.dist_strings ∧
      (I.foldl (closeStepM mq esc) acc).equiv_classes = acc.equiv_classes ∧
      ∀ r' c, otGet (I.foldl (closeStepM mq esc) acc).table r' c =
        if (∃ i ∈ I, r' = esc ++ [i]) ∧ c ∈ acc.dist_strings
        then some (fillValue mq r' c) else otGet acc.table r' c := by
  induction I with
  | nil =>
    intro acc
    refine ⟨rfl, by simp, rfl, rfl, fun r' c => ?_⟩
    simp
  | cons i I' ih =>
    intro acc
    obtain ⟨s1, s2, s3, s4, s5⟩ := closeStepM_spec mq esc acc i
    obtain ⟨h1, h2, h3, h4, h5⟩ := ih (closeStepM mq esc acc i)
    rw [List.foldl_cons]
    refine ⟨by rw [h1, s1], by rw [h2, s2]; simp, by rw [h3, s3], by rw [h4, s4],
      fun r' c => ?_⟩
    rw [h5 r' c, s3, s5 r' c]
    by_cases hc : c ∈ acc.dist_strings
    · by_cases hex : ∃ i' ∈ I', r' = esc ++ [i']
      · have hex2 : ∃ i2 ∈ i :: I', r' = esc ++ [i2] := by
          obtain ⟨i', hi', hr⟩ := hex
          exact ⟨i', List.mem_cons_of_mem i hi', hr⟩
        rw [if_pos ⟨hex, hc⟩, if_pos ⟨hex2, hc⟩]
      · rw [if_neg (fun h => hex h.1)]
        by_cases hr : r' = esc ++ [i]
        · have hex2 : ∃ i2 ∈ i :: I', r' = esc ++ [i2] :=
            ⟨i, List.mem_cons_self i I', hr⟩
          rw [if_pos ⟨hr, hc⟩, if_pos ⟨hex2, hc⟩, hr]
        · have hex2 : ¬ ((∃ i2 ∈ i :: I', r' = esc ++ [i2]) ∧ c ∈ acc.dist_strings) := by
            rintro ⟨⟨i2, hi2, hr2⟩, -⟩
            rcases List.mem_cons.mp hi2 with rfl | hi2
            · exact hr hr2
            · exact hex ⟨i2, hi2, hr2⟩
          rw [if_neg (fun h => hr h.1), if_neg hex2]
    · rw [if_neg (fun h => hc h.2), if_neg (fun h => hc h.2),
        if_neg (fun h => hc h.2)]

theorem closeFoldL_spec (mq : Word → Word) (esc : Word) (I : List Nat) :
    ∀ (acc : OTL),
      (I.foldl (closeStepL mq esc) acc).access_strings = acc.access_strings ∧
      (I.foldl (closeStepL mq esc) acc).transitions =
        acc.transitions ++ I.map (fun i => esc ++ [i]) ∧
      (I.foldl (closeStepL mq esc) acc).dist_strings = acc.dist_strings ∧
      (I.foldl (closeStepL mq esc) acc).lookaheads = acc.lookaheads ∧
      (I.foldl (closeStepL mq esc) acc).equiv_classes = acc.equiv_classes ∧
      ∀ r' c, otGet (I.foldl (closeStepL mq esc) acc).table r' c =
        if (∃ i ∈ I, r' = esc ++ [i]) ∧ c ∈ acc.dist_strings
        then some (fillValue mq r' c) else otGet acc.table r' c := by
  induction I with
  | nil =>
    intro acc
    refine ⟨rfl, by simp, rfl, rfl, rfl, fun r' c => ?_⟩
    simp
  | cons i I' ih =>
    intro acc
    obtain ⟨s1, s2, s3, s4, s5, s6⟩ := closeStepL_spec mq esc acc i
    obtain ⟨h1, h2, h3, h4, h5, h6⟩ := ih (closeStepL mq esc acc i)
    rw [List.foldl_cons]
    refine ⟨by rw [h1, s1], by rw [h2, s2]; simp, by rw [h3, s3], by rw [h4, s4],
      by rw [h5, s5], fun r' c => ?_⟩
    rw [h6 r' c, s3, s6 r' c]
    by_cases hc : c ∈ acc.dist_strings
    · by_cases hex : ∃ i' ∈ I', r' = esc ++ [i']
      · have hex2 : ∃ i2 ∈ i :: I', r' = esc ++ [i2] := by
          obtain ⟨i', hi', hr⟩ := hex
          exact ⟨i', List.mem_cons_of_mem i hi', hr⟩
        rw [if_pos ⟨hex, hc⟩, if_pos ⟨hex2, hc⟩]
      · rw [if_neg (fun h => hex h.1)]
        by_cases hr : r' = esc ++ [i]
        · have hex2 : ∃ i2 ∈ i :: I', r' = esc ++ [i2] :=
            ⟨i, List.mem_cons_self i I', hr⟩
          rw [if_pos ⟨hr, hc⟩, if_pos ⟨hex2, hc⟩, hr]
        · have hex2 : ¬ ((∃ i2 ∈ i :: I', r' = esc ++ [i2]) ∧ c ∈ acc.dist_strings) := by
            rintro ⟨⟨i2, hi2, hr2⟩, -⟩
            rcases List.mem_cons.mp hi2 with rfl | hi2
            · exact hr hr2
            · exact hex ⟨i2, hi2, hr2⟩
          rw [if_neg (fun h => hr h.1), if_neg hex2]
    · rw [if_neg (fun h => hc h.2), if_neg (fun h => hc h.2),
        if_neg (fun h => hc h.2)]

/-- A small Mealy observation table with the escaping row `[1]` present in
`transitions`. -/
def otmEx5 : OTM :=
  { table := [([], [([1], [1])]), ([1], [([1], [1, 1])])],
    access_strings := [[]], transitions := [[1]], dist_strings := [[1]],
    equiv_classes := [] }

/-- The same table for the lookahead learner. -/
def otlEx5 : OTL :=
  { table := [([], [([1], [1])]), ([1], [([1], [1, 1])])],
    access_strings := [[]], transitions := [[1]], dist_strings := [[1]],
    lookaheads := [], equiv_classes := [] }

/-- C5 counterexample: promoting the escaping row `[1]` appends it to the
access strings but does *not* remove it from the transition list — after
`_close_ot` the row is a member of both S and T in either learner,
contradicting "is no longer a member of T". -/
theorem close_ot_keeps_row_in_transitions :
    [1] ∈ (close_otM mqId [1] otmEx5 [1]).transitions ∧
    [1] ∈ (close_otM mqId [1] otmEx5 [1]).access_strings ∧
    [1] ∈ (close_otL mqId [1] otlEx5 [1]).transitions := by
  decide

/-- C5 (amended): `_close_ot(row)` of either learner appends the promoted
row to the access-string set S (the row also remains in the transition set
T), appends each one-symbol alphabet extension of the row to T, and fills
every such extension across all distinguishing suffixes with the
suffix-isolated membership answer; the distinguishing suffixes (and the
lookahead set) are unchanged. -/
theorem close_ot_spec (mq : Word → Word) (I : List Nat) (otm : OTM) (otl : OTL)
    (esc : Word) :
    ((close_otM mq I otm esc).access_strings = otm.access_strings ++ [esc] ∧
     (close_otM mq I otm esc).transitions =
       otm.transitions ++ I.map (fun i => esc ++ [i]) ∧
     (close_otM mq I otm esc).dist_strings = otm.dist_strings ∧
     ∀ i ∈ I, ∀ d ∈ otm.dist_strings,
       otGet (close_otM mq I otm esc).table (esc ++ [i]) d =
         some (fillValue mq (esc ++ [i]) d)) ∧
    ((close_otL mq I otl esc).access_strings = otl.access_strings ++ [esc] ∧
     (close_otL mq I otl esc).transitions =
       otl.transitions ++ I.map (fun i => esc ++ [i]) ∧
     (close_otL mq I otl esc).dist_strings = otl.dist_strings ∧
     (close_otL mq I otl esc).lookaheads = otl.lookaheads ∧
     ∀ i ∈ I, ∀ d ∈ otl.dist_strings,
       otGet (close_otL mq I otl esc).table (esc ++ [i]) d =
         some (fillValue mq (esc ++ [i]) d)) := by
  constructor
  · obtain ⟨h1, h2, h3, h4, h5⟩ := closeFoldM_spec mq esc I
      { otm with access_strings := otm.access_strings ++ [esc] }
    rw [close_otM]
    refine ⟨h1, h2, h3, fun i hi d hd => ?_⟩
    rw [h5 (esc ++ [i]) d, if_pos ⟨⟨i, hi, rfl⟩, hd⟩]
  · obtain ⟨h1, h2, h3, h4, h5, h6⟩ := closeFoldL_spec mq esc I
      { otl with access_strings := otl.access_strings ++ [esc] }
    rw [close_otL]
    refine ⟨h1, h2, h3, h4, fun i hi d hd => ?_⟩
    rw [h6 (esc ++ [i]) d, if_pos ⟨⟨i, hi, rfl⟩, hd⟩]

/-- Witness for C5 (amended) at a concrete table, symbol and suffix. -/
theorem close_ot_spec_witness :
    otGet (close_otM mqId [1] otmEx5 [1]).table ([1] ++ [1]) [1] =
      some (fillValue mqId ([1] ++ [1]) [1]) ∧
    otGet (close_otL mqId [1] otlEx5 [1]).table ([1] ++ [1]) [1] =
      some (fillValue mqId ([1] ++ [1]) [1]) :=
  ⟨(close_ot_spec mqId [1] otmEx5 otlEx5 [1]).1.2.2.2 1 (by decide) [1] (by decide),
   (close_ot_spec mqId [1] otmEx5 otlEx5 [1]).2.2.2.2.2 1 (by decide) [1] (by decide)⟩

/-! ## Closedness check: `_ObservationTable.is_closed` (both modules)

The Mealy version scans `self.transitions`; the lookahead version scans
`self.transitions + [src+inp for (src, inp, _) in self.lookaheads]`.  For
each scanned row it searches the access strings for one whose whole row
dict compares equal (`self.ot[acc_str] == self.ot[trans]`, Python dict
equality), recording the first match in `equiv_classes`; the first row with
no match is returned as the escaping row.  The raw dict indexing raises
`KeyError` for a row that was never filled.  On an escaping row the
lookahead version additionally evaluates, for every access string, the
debug-log arguments `self._get_difference(trans, acc_str)` and
`self.ot[trans][col]` / `self.ot[acc_str][col]` — lookups that raise
`KeyError` when a column is missing or when no distinguishing column
differs (`col` is then `None`). -/

/-- The row dict of `row` (meaningful when the row is present). -/
def rowDict (tbl : OTable) (r : Word) : RowD := (alGet tbl r).getD []

/-- The inner `for acc_str in self.access_strings` search of `is_closed`:
first access string whose row dict equals that of `trans`. -/
def findMatchingRow (tbl : OTable) (trans : Word) :
    List Word → Except PyErr (Option Word)
  | [] => .ok none
  | acc :: rest =>
    match alGet tbl acc with
    | none => .error .keyErr
    | some dAcc =>
      match alGet tbl trans with
      | none => .error .keyErr
      | some dTr =>
        if pyDictEq dAcc dTr then .ok (some acc) else findMatchingRow tbl trans rest

/-- `_ObservationTable._get_difference(trans, acc_str)` of the lookahead
module: first distinguishing column on which the two rows differ. -/
def get_difference_cols (tbl : OTable) (trans acc : Word) :
    List Word → Except PyErr (Option Word)
  | [] => .ok none
  | col :: cols =>
    match alGet tbl trans with
    | none => .error .keyErr
    | some dTr =>
      match alGet dTr col with
      | none => .error .keyErr
      | some vTr =>
        match alGet tbl acc with
        | none => .error .keyErr
        | some dAcc =>
          match alGet dAcc col with
          | none => .error .keyErr
          | some vAcc =>
            if vTr ≠ vAcc then .ok (some col)
            else get_difference_cols tbl trans acc cols

/-- The escaping-row debug logging of the lookahead `is_closed` for one
access string: compute the differing column, then evaluate
`self.ot[trans][col]` and `self.ot[acc_str][col]` for the log message —
which raises `KeyError` when `col` is `None`. -/
def logDiffOne (tbl : OTable) (dists : List Word) (trans acc : Word) :
    Except PyErr Unit :=
  match get_difference_cols tbl trans acc dists with
  | .error e => .error e
  | .ok none => .error .keyErr
  | .ok (some _) => .ok ()

/-- The escaping-row debug logging loop over all access strings. -/
def logDiffs (tbl : OTable) (dists : List Word) (trans : Word) :
    List Word → Except PyErr Unit
  | [] => .ok ()
  | acc :: rest =>
    match logDiffOne tbl dists trans acc with
    | .error e => .error e
    | .ok _ => logDiffs tbl dists trans rest

/-- The scan loop of the Mealy `is_closed`. -/
def isClosedScanM (tbl : OTable) (access : List Word) :
    List Word → List (Word × Word) →
      Except PyErr ((Bool × Option Word) × List (Word × Word))
  | [], eqc => .ok ((true, none), eqc)
  | r :: rs, eqc =>
    match findMatchingRow tbl r access with
    | .error e => .error e
    | .ok none => .ok ((false, some r), eqc)
    | .ok (some a) => isClosedScanM tbl access rs (alSet eqc r a)

/-- `_ObservationTable.is_closed` of `angluin_fst.py`: scan the transition
rows; on success return `(true, none)` with the updated equivalence-class
map, otherwise `(false, escaping_row)`. -/
def is_closedM (ot : OTM) : Except PyErr ((Bool × Option Word) × OTM) :=
  match isClosedScanM ot.table ot.access_strings ot.transitions ot.equiv_classes with
  | .error e => .error e
  | .ok (res, eqc) => .ok (res, { ot with equiv_classes := eqc })

/-- The scan loop of the lookahead `is_closed`, with the escaping-row debug
logging. -/
def isClosedScanL (tbl : OTable) (access : List Word) (dists : List Word) :
    List Word → List (Word × Word) →
      Except PyErr ((Bool × Option Word) × List (Word × Word))
  | [], eqc => .ok ((true, none), eqc)
  | r :: rs, eqc =>
    match findMatchingRow tbl r access with
    | .error e => .error e
    | .ok none =>
      match logDiffs tbl dists r access with
      | .error e => .error e
      | .ok _ => .ok ((false, some r), eqc)
    | .ok (some a) => isClosedScanL tbl access dists rs (alSet eqc r a)

/-- The scanned lookahead-extension rows `src + inp`. -/
def lookaheadRows (ot : OTL) : List Word :=
  ot.lookaheads.map (fun x => x.1 ++ x.2.1)

/-- `_ObservationTable.is_closed` of `angluin_fst_lookahead.py`. -/
def is_closedL (ot : OTL) : Except PyErr ((Bool × Option Word) × OTL) :=
  match isClosedScanL ot.table ot.access_strings ot.dist_strings
      (ot.transitions ++ lookaheadRows ot) ot.equiv_classes with
  | .error e => .error e
  | .ok (res, eqc) => .ok (res, { ot with equiv_classes := eqc })

/-- The first matching access string for a row, as a pure function. -/
def matchRow (tbl : OTable) (access : List Word) (r : Word) : Option Word :=
  access.find? (fun a => pyDictEq (rowDict tbl a) (rowDict tbl r))

theorem findMatchingRow_eq (tbl : OTable) (r : Word)
    (hr : (alGet tbl r).isSome) :
    ∀ (access : List Word), (∀ a ∈ access, (alGet tbl a).isSome) →
      findMatchingRow tbl r access = .ok (matchRow tbl access r) := by
  intro access
  induction access with
  | nil => intro _; rfl
  | cons acc rest ih =>
    intro hacc
    obtain ⟨dAcc, hdAcc⟩ := Option.isSome_iff_exists.mp
      (hacc acc (List.mem_cons_self acc rest))
    obtain ⟨dTr, hdTr⟩ := Option.isSome_iff_exists.mp hr
    rw [findMatchingRow, hdAcc, hdTr, matchRow, List.find?_cons]
    have h1 : rowDict tbl acc = dAcc := by rw [rowDict, hdAcc]; rfl
    have h2 : rowDict tbl r = dTr := by rw [rowDict, hdTr]; rfl
    rw [h1, h2]
    cases heq : pyDictEq dAcc dTr with
    | true => simp [heq]
    | false =>
      have ih' := ih (fun a ha => hacc a (List.mem_cons_of_mem acc ha))
      simp [heq, ih', matchRow, h2]

theorem otGet_eq_rowDict (tbl : OTable) (r : Word) (hr : (alGet tbl r).isSome)
    (c : Word) : otGet tbl r c = alGet (rowDict tbl r) c := by
  obtain ⟨rd, hrd⟩ := Option.isSome_iff_exists.mp hr
  rw [otGet, hrd, rowDict, hrd]
  rfl

theorem isClosedScanM_spec (tbl : OTable) (access : List Word)
    (hacc : ∀ a ∈ access, (alGet tbl a).isSome) :
    ∀ (scan : List Word) (eqc : List (Word × Word)),
      (∀ r ∈ scan, (alGet tbl r).isSome) →
      ((∀ r ∈ scan, (matchRow tbl access r).isSome) →
        ∃ eqcF, isClosedScanM tbl access scan eqc = .ok ((true, none), eqcF) ∧
          ∀ r, alGet eqcF r =
            if r ∈ scan then matchRow tbl access r else alGet eqc r) ∧
      (∀ r₀, scan.find? (fun r => (matchRow tbl access r).isNone) = some r₀ →
        ∃ eqc2, isClosedScanM tbl access scan eqc = .ok ((false, some r₀), eqc2)) := by
  intro scan
  induction scan with
  | nil =>
    intro eqc _
    refine ⟨fun _ => ⟨eqc, rfl, fun r => by simp⟩, fun r₀ hr₀ => ?_⟩
    simp [List.find?] at hr₀
  | cons r rs ih =>
    intro eqc hpres
    have hrp : (alGet tbl r).isSome := hpres r (List.mem_cons_self r rs)
    have hfind := findMatchingRow_eq tbl r hrp access hacc
    have hpres' : ∀ x ∈ rs, (alGet tbl x).isSome :=
      fun x hx => hpres x (List.mem_cons_of_mem r hx)
    cases hm : matchRow tbl access r with
    | some a =>
      have hstep : isClosedScanM tbl access (r :: rs) eqc =
          isClosedScanM tbl access rs (alSet eqc r a) := by
        rw [isClosedScanM, hfind, hm]
      obtain ⟨ihs, ihf⟩ := ih (alSet eqc r a) hpres'
      constructor
      · intro hall
        obtain ⟨eqcF, heqcF, hchar⟩ := ihs
          (fun x hx => hall x (List.mem_cons_of_mem r hx))
        refine ⟨eqcF, by rw [hstep]; exact heqcF, fun x => ?_⟩
        rw [hchar x, alGet_alSet]
        by_cases hxrs : x ∈ rs
        · simp [hxrs]
        · by_cases hxr : x = r
          · subst hxr
            simp [hxrs, hm]
          · simp [hxrs, hxr]
      · intro r₀ hr₀
        rw [List.find?_cons] at hr₀
        rw [hm] at hr₀
        simp only [Option.isNone_some] at hr₀
        obtain ⟨eqc2, h2⟩ := ihf r₀ hr₀
        exact ⟨eqc2, by rw [hstep]; exact h2⟩
    | none =>
      constructor
      · intro hall
        have := hall r (List.mem_cons_self r rs)
        rw [hm] at this
        exact absurd this (by simp)
      · intro r₀ hr₀
        rw [List.find?_cons, hm] at hr₀
        simp only [Option.isNone_none] at hr₀
        have hr0 : r₀ = r := by
          simp at hr₀
          exact hr₀.symm
        subst hr0
        refine ⟨eqc, ?_⟩
        rw [isClosedScanM, hfind, hm]

theorem get_difference_some (tbl : OTable) (r a : Word)
    (hr : (alGet tbl r).isSome) (ha : (alGet tbl a).isSome) :
    ∀ (dists : List Word),
      (∀ c ∈ dists, (alGet (rowDict tbl r) c).isSome) →
      (∀ c ∈ dists, (alGet (rowDict tbl a) c).isSome) →
      (∃ c ∈ dists, alGet (rowDict tbl a) c ≠ alGet (rowDict tbl r) c) →
      ∃ col, get_difference_cols tbl r a dists = .ok (some col) := by
  intro dists
  induction dists with
  | nil =>
    intro _ _ hdiff
    simp at hdiff
  | cons c cs ih =>
    intro hfr hfa hdiff
    obtain ⟨dTr, hdTr⟩ := Option.isSome_iff_exists.mp hr
    obtain ⟨dAcc, hdAcc⟩ := Option.isSome_iff_exists.mp ha
    have hrdr : rowDict tbl r = dTr := by rw [rowDict, hdTr]; rfl
    have hrda : rowDict tbl a = dAcc := by rw [rowDict, hdAcc]; rfl
    obtain ⟨vTr, hvTr⟩ := Option.isSome_iff_exists.mp
      (hfr c (List.mem_cons_self c cs))
    obtain ⟨vAcc, hvAcc⟩ := Option.isSome_iff_exists.mp
      (hfa c (List.mem_cons_self c cs))
    rw [hrdr] at hvTr
    rw [hrda] at hvAcc
    by_cases hne : vTr ≠ vAcc
    · refine ⟨c, ?_⟩
      simp [get_difference_cols, hdTr, hvTr, hdAcc, hvAcc, hne]
    · push_neg at hne
      subst hne
      have hstep : get_difference_cols tbl r a (c :: cs) =
          get_difference_cols tbl r a cs := by
        simp [get_difference_cols, hdTr, hvTr, hdAcc, hvAcc]
      rw [hstep]
      refine ih (fun x hx => hfr x (List.mem_cons_of_mem c hx))
        (fun x hx => hfa x (List.mem_cons_of_mem c hx)) ?_
      obtain ⟨c', hc', hne'⟩ := hdiff
      rcases List.mem_cons.mp hc' with rfl | hc'
      · rw [hrdr, hrda, hvTr, hvAcc] at hne'
        exact absurd rfl hne'
      · exact ⟨c', hc', hne'⟩

theorem logDiffs_ok (tbl : OTable) (dists : List Word) (r : Word)
    (hr : (alGet tbl r).isSome)
    (hfr : ∀ c ∈ dists, (alGet (rowDict tbl r) c).isSome) :
    ∀ (access : List Word),
      (∀ a ∈ access, (alGet tbl a).isSome) →
      (∀ a ∈ access, ∀ c ∈ dists, (alGet (rowDict tbl a) c).isSome) →
      (∀ a ∈ access, ∃ c ∈ dists, alGet (rowDict tbl a) c ≠ alGet (rowDict tbl r) c) →
      logDiffs tbl dists r access = .ok () := by
  intro access
  induction access with
  | nil => intro _ _ _; rfl
  | cons a rest ih =>
    intro hacc hfill hdiff
    obtain ⟨col, hcol⟩ := get_difference_some tbl r a hr
      (hacc a (List.mem_cons_self a rest)) dists hfr
      (hfill a (List.mem_cons_self a rest))
      (hdiff a (List.mem_cons_self a rest))
    rw [logDiffs, logDiffOne, hcol]
    exact ih (fun x hx => hacc x (List.mem_cons_of_mem a hx))
      (fun x hx => hfill x (List.mem_cons_of_mem a hx))
      (fun x hx => hdiff x (List.mem_cons_of_mem a hx))

theorem isClosedScanL_spec (tbl : OTable) (access : List Word)
    (dists : List Word)
    (hacc : ∀ a ∈ access, (alGet tbl a).isSome) :
    ∀ (scan : List Word) (eqc : List (Word × Word)),
      (∀ r ∈ scan, (alGet tbl r).isSome) →
      ((∀ r ∈ scan, (matchRow tbl access r).isSome) →
        ∃ eqcF, isClosedScanL tbl access dists scan eqc = .ok ((true, none), eqcF) ∧
          ∀ r, alGet eqcF r =
            if r ∈ scan then matchRow tbl access r else alGet eqc r) ∧
      (∀ r₀, scan.find? (fun r => (matchRow tbl access r).isNone) = some r₀ →
        (∀ c ∈ dists, (alGet (rowDict tbl r₀) c).isSome) →
        (∀ a ∈ access, ∀ c ∈ dists, (alGet (rowDict tbl a) c).isSome) →
        (∀ a ∈ access, ∃ c ∈ dists,
          alGet (rowDict tbl a) c ≠ alGet (rowDict tbl r₀) c) →
        ∃ eqc2, isClosedScanL tbl access dists scan eqc =
          .ok ((false, some r₀), eqc2)) := by
  intro scan
  induction scan with
  | nil =>
    intro eqc _
    refine ⟨fun _ => ⟨eqc, rfl, fun r => by simp⟩, fun r₀ hr₀ => ?_⟩
    simp [List.find?] at hr₀
  | cons r rs ih =>
    intro eqc hpres
    have hrp : (alGet tbl r).isSome := hpres r (List.mem_cons_self r rs)
    have hfind := findMatchingRow_eq tbl r hrp access hacc
    have hpres' : ∀ x ∈ rs, (alGet tbl x).isSome :=
      fun x hx => hpres x (List.mem_cons_of_mem r hx)
    cases hm : matchRow tbl access r with
    | some a =>
      have hstep : isClosedScanL tbl access dists (r :: rs) eqc =
          isClosedScanL tbl access dists rs (alSet eqc r a) := by
        rw [isClosedScanL, hfind, hm]
      obtain ⟨ihs, ihf⟩ := ih (alSet eqc r a) hpres'
      constructor
      · intro hall
        obtain ⟨eqcF, heqcF, hchar⟩ := ihs
          (fun x hx => hall x (List.mem_cons_of_mem r hx))
        refine ⟨eqcF, by rw [hstep]; exact heqcF, fun x => ?_⟩
        rw [hchar x, alGet_alSet]
        by_cases hxrs : x ∈ rs
        · simp [hxrs]
        · by_cases hxr : x = r
          · subst hxr
            simp [hxrs, hm]
          · simp [hxrs, hxr]
      · intro r₀ hr₀ hh1 hh2 hh3
        rw [List.find?_cons] at hr₀
        rw [hm] at hr₀
        simp only [Option.isNone_some] at hr₀
        obtain ⟨eqc2, h2⟩ := ihf r₀ hr₀ hh1 hh2 hh3
        exact ⟨eqc2, by rw [hstep]; exact h2⟩
    | none =>
      constructor
      · intro hall
        have := hall r (List.mem_cons_self r rs)
        rw [hm] at this
        exact absurd this (by simp)
      · intro r₀ hr₀ hh1 hh2 hh3
        rw [List.find?_cons, hm] at hr₀
        simp only [Option.isNone_none] at hr₀
        have hr0 : r₀ = r := by
          simp at hr₀
          exact hr₀.symm
        subst hr0
        refine ⟨eqc, ?_⟩
        rw [isClosedScanL, hfind, hm,
          logDiffs_ok tbl dists r₀ hrp hh1 access hacc hh2 hh3]

/-- C6: for both learners, when every scanned row (the transition rows,
plus the lookahead-extension rows `src ++ inp` in the lookahead learner)
has some access string with an equal row dict, `is_closed` returns
`(true, none)` and the equivalence-class map records for each scanned row
an access string whose row vector agrees with it on every column — in
particular across all distinguishing suffixes; when some scanned row
matches no access string, `is_closed` returns `(false, r)` with `r` the
first such escaping row in scan order.  (Hypotheses: the scanned and
access rows are present in the table, and — for the lookahead learner's
escaping branch, whose debug logging re-reads the cells — the rows are
filled on all distinguishing suffixes and differ there; both are
invariants of the filled table.) -/
theorem is_closed_spec (otm : OTM) (otl : OTL) :
    ((∀ r ∈ otm.access_strings ++ otm.transitions, (alGet otm.table r).isSome) →
      ((∀ r ∈ otm.transitions, (matchRow otm.table otm.access_strings r).isSome) →
        ∃ otF, is_closedM otm = .ok ((true, none), otF) ∧
          ∀ r ∈ otm.transitions, ∃ a ∈ otm.access_strings,
            alGet otF.equiv_classes r = some a ∧
            ∀ c, otGet otm.table r c = otGet otm.table a c) ∧
      (∀ r₀, otm.transitions.find?
          (fun r => (matchRow otm.table otm.access_strings r).isNone) = some r₀ →
        ∃ otF, is_closedM otm = .ok ((false, some r₀), otF))) ∧
    ((∀ r ∈ otl.access_strings ++ (otl.transitions ++ lookaheadRows otl),
        (alGet otl.table r).isSome) →
      ((∀ r ∈ otl.transitions ++ lookaheadRows otl,
          (matchRow otl.table otl.access_strings r).isSome) →
        ∃ otF, is_closedL otl = .ok ((true, none), otF) ∧
          ∀ r ∈ otl.transitions ++ lookaheadRows otl,
            ∃ a ∈ otl.access_strings,
              alGet otF.equiv_classes r = some a ∧
              ∀ c, otGet otl.table r c = otGet otl.table a c) ∧
      (∀ r₀, (otl.transitions ++ lookaheadRows otl).find?
          (fun r => (matchRow otl.table otl.access_strings r).isNone) = some r₀ →
        (∀ c ∈ otl.dist_strings, (alGet (rowDict otl.table r₀) c).isSome) →
        (∀ a ∈ otl.access_strings, ∀ c ∈ otl.dist_strings,
          (alGet (rowDict otl.table a) c).isSome) →
        (∀ a ∈ otl.access_strings, ∃ c ∈ otl.dist_strings,
          alGet (rowDict otl.table a) c ≠ alGet (rowDict otl.table r₀) c) →
        ∃ otF, is_closedL otl = .ok ((false, some r₀), otF))) := by
  constructor
  · intro hpres
    have haccp : ∀ a ∈ otm.access_strings, (alGet otm.table a).isSome :=
      fun a ha => hpres a (List.mem_append_left _ ha)
    have htrp : ∀ r ∈ otm.transitions, (alGet otm.table r).isSome :=
      fun r hr => hpres r (List.mem_append_right _ hr)
    obtain ⟨hs, hf⟩ := isClosedScanM_spec otm.table otm.access_strings haccp
      otm.transitions otm.equiv_classes htrp
    constructor
    · intro hall
      obtain ⟨eqcF, hrun, hchar⟩ := hs hall
      refine ⟨{ otm with equiv_classes := eqcF }, ?_, ?_⟩
      · rw [is_closedM, hrun]
      · intro r hr
        have hmr := hchar r
        rw [if_pos hr] at hmr
        cases hm : matchRow otm.table otm.access_strings r with
        | none =>
          have := hall r hr
          rw [hm] at this
          exact absurd this (by simp)
        | some a =>
          have hm' : List.find?
              (fun x => pyDictEq (rowDict otm.table x) (rowDict otm.table r))
              otm.access_strings = some a := hm
          have hamem : a ∈ otm.access_strings := List.mem_of_find?_eq_some hm'
          have hpe0 := List.find?_some hm'
          have hpe : pyDictEq (rowDict otm.table a) (rowDict otm.table r) = true := hpe0
          refine ⟨a, hamem, by rw [hmr, hm], fun c => ?_⟩
          rw [otGet_eq_rowDict otm.table r (htrp r hr) c,
            otGet_eq_rowDict otm.table a (haccp a hamem) c]
          exact (pyDictEq_ext _ _ hpe c).symm
    · intro r₀ hr₀
      obtain ⟨eqc2, h2⟩ := hf r₀ hr₀
      exact ⟨{ otm with equiv_classes := eqc2 }, by rw [is_closedM, h2]⟩
  · intro hpres
    have haccp : ∀ a ∈ otl.access_strings, (alGet otl.table a).isSome :=
      fun a ha => hpres a (List.mem_append_left _ ha)
    have htrp : ∀ r ∈ otl.transitions ++ lookaheadRows otl,
        (alGet otl.table r).isSome :=
      fun r hr => hpres r (List.mem_append_right _ hr)
    obtain ⟨hs, hf⟩ := isClosedScanL_spec otl.table otl.access_strings
      otl.dist_strings haccp (otl.transitions ++ lookaheadRows otl)
      otl.equiv_classes htrp
    constructor
    · intro hall
      obtain ⟨eqcF, hrun, hchar⟩ := hs hall
      refine ⟨{ otl with equiv_classes := eqcF }, ?_, ?_⟩
      · rw [is_closedL, hrun]
      · intro r hr
        have hmr := hchar r
        rw [if_pos hr] at hmr
        cases hm : matchRow otl.table otl.access_strings r with
        | none =>
          have := hall r hr
          rw [hm] at this
          exact absurd this (by simp)
        | some a =>
          have hm' : List.find?
              (fun x => pyDictEq (rowDict otl.table x) (rowDict otl.table r))
              otl.access_strings = some a := hm
          have hamem : a ∈ otl.access_strings := List.mem_of_find?_eq_some hm'
          have hpe0 := List.find?_some hm'
          have hpe : pyDictEq (rowDict otl.table a) (rowDict otl.table r) = true := hpe0
          refine ⟨a, hamem, by rw [hmr, hm], fun c => ?_⟩
          rw [otGet_eq_rowDict otl.table r (htrp r hr) c,
            otGet_eq_rowDict otl.table a (haccp a hamem) c]
          exact (pyDictEq_ext _ _ hpe c).symm
    · intro r₀ hr₀ hh1 hh2 hh3
      obtain ⟨eqc2, h2⟩ := hf r₀ hr₀ hh1 hh2 hh3
      exact ⟨{ otl with equiv_classes := eqc2 }, by rw [is_closedL, h2]⟩

/-- A closed Mealy table: the single transition row matches the single
access row. -/
def otmW : OTM :=
  { table := [([], [([1], [1])]), ([1], [([1], [1])])],
    access_strings := [[]], transitions := [[1]], dist_strings := [[1]],
    equiv_classes := [] }

/-- A non-closed lookahead table: the transition row differs from the
access row on the only distinguishing suffix. -/
def otlW : OTL :=
  { table := [([], [([1], [1])]), ([1], [([1], [2])])],
    access_strings := [[]], transitions := [[1]], dist_strings := [[1]],
    lookaheads := [], equiv_classes := [] }

/-- Witness for C6: the closed table is reported closed with the
equivalence map populated, and the non-closed table is reported not closed
with its first escaping row. -/
theorem is_closed_spec_witness :
    (∃ otF, is_closedM otmW = .ok ((true, none), otF) ∧
      ∀ r ∈ otmW.transitions, ∃ a ∈ otmW.access_strings,
        alGet otF.equiv_classes r = some a ∧
        ∀ c, otGet otmW.table r c = otGet otmW.table a c) ∧
    (∃ otF, is_closedL otlW = .ok ((false, some [1]), otF)) :=
  ⟨((is_closed_spec otmW otlW).1 (by decide)).1 (by decide),
   ((is_closed_spec otmW otlW).2 (by decide)).2 [1] (by decide) (by decide)
     (by decide) (by decide)⟩

/-! ## Rivest–Schapire counterexample processing (`angluin_fst.py`)

`_run_in_hypothesis` of the Mealy learner reads:

    state = self._hypothesis[0]
    for i in range(index):
        for arc in state.arcs:
            if arc.ilabel == inp[i]:
                state = self._hypothesis[arc.nextstate]
                s_index = arc.nextstate
    access_string = self.ot.access_strings[s_index]

`arc.ilabel` is a list (arcs are added with input `[int(i)]`) while
`inp[i]` is an integer, and in Python 2 a list never compares equal to an
integer, so the guard is constantly false; `s_index` is never assigned and
the final line raises `UnboundLocalError`.  The guard's right operand
`inp[i]` is still evaluated for every arc, raising `IndexError` when
`i >= len(inp)`. -/

/-- The guard `arc.ilabel == inp[i]`: a Python 2 comparison of a list with
an integer, which is always `False`. -/
def pyListEqInt (_l : List Nat) (_n : Nat) : Bool := false

/-- The inner `for arc in state.arcs` loop of the Mealy
`_run_in_hypothesis`, carried over the (state, s_index) pair; the arc list
iterated is the one captured when the loop started. -/
def mealyRunArcs (hyp : Transducer) (inp : Word) (i : Nat) :
    List FstArc → FstState × Option Nat → Except PyErr (FstState × Option Nat)
  | [], acc => .ok acc
  | a :: as, acc =>
    if hi : i < inp.length then
      if pyListEqInt a.ilabel (inp.get ⟨i, hi⟩) then
        match hyp.states[a.nextstate]? with
        | none => .error .indexErr
        | some st2 => mealyRunArcs hyp inp i as (st2, some a.nextstate)
      else mealyRunArcs hyp inp i as acc
    else .error .indexErr

/-- The outer `for i in range(index)` loop. -/
def mealyRunLoop (hyp : Transducer) (inp : Word) :
    List Nat → FstState × Option Nat → Except PyErr (FstState × Option Nat)
  | [], acc => .ok acc
  | i :: rest, acc =>
    match mealyRunArcs hyp inp i acc.1.arcs acc with
    | .error e => .error e
    | .ok acc2 => mealyRunLoop hyp inp rest acc2

/-- `MealyMachineLearner._run_in_hypothesis(inp, index)`; the unassigned
`s_index` is the `none` component, and using it raises `nameErr`. -/
def mealy_run_in_hypothesis (hyp : Transducer) (accessStrings : List Word)
    (inp : Word) (index : Nat) : Except PyErr Word :=
  match hyp.states[0]? with
  | none => .error .indexErr
  | some st0 =>
    match mealyRunLoop hyp inp (List.range index) (st0, none) with
    | .error e => .error e
    | .ok (_, none) => .error .nameErr
    | .ok (_, some k) =>
      match accessStrings[k]? with
      | none => .error .indexErr
      | some acc => .ok acc

/-- C2 (code bug): the Mealy `_run_in_hypothesis` never returns an access
string — with `inp = [1]` and `index = 0` (the `i = 0` probe of
Rivest–Schapire) and equally with `index = 1`, it raises
`UnboundLocalError` on `s_index` instead of returning the initial state's
empty access string: the guard compares the list `arc.ilabel` with the
integer `inp[i]`, which is always false in Python 2, and `s_index` is never
initialised. -/
theorem mealy_run_in_hypothesis_raises :
    mealy_run_in_hypothesis exGoodT [[]] [1] 0 = .error .nameErr ∧
    mealy_run_in_hypothesis exGoodT [[]] [1, 1] 1 = .error .nameErr := by
  constructor
  · rfl
  · rfl

/-- `MealyMachineLearner._check_suffix(inp, access_string, index)`: compare
the suffix-isolated outputs of `access_string ++ inp[index:]` and `inp`. -/
def check_suffix (mq : Word → Word) (inp : Word) (access_string : Word)
    (index : Nat) : Bool :=
  let pfx_as := mq access_string
  let full_as := mq (access_string ++ inp.drop index)
  let pfx_inp := mq (inp.take index)
  let full_inp := mq inp
  let as_suffix := full_as.drop (commonPfx pfx_as full_as).length
  let inp_suffix := full_inp.drop (commonPfx pfx_inp full_inp).length
  as_suffix != inp_suffix

/-- The learner state the counterexample processors operate on. -/
structure MealyState where
  ot : OTM
  hyp : Transducer

/-- The `while True` binary search of `_process_ce_rs`, with fuel (the
interval shrinks, so `len(ce) + 2` rounds suffice when the probes
succeed). -/
def rsLoop (mq : Word → Word) (st : MealyState) (ce : Word) :
    Nat → Nat → Nat → Except PyErr Nat
  | 0, _, _ => .error .diverge
  | fuel + 1, same, diff =>
    let i := (same + diff) / 2
    match mealy_run_in_hypothesis st.hyp st.ot.access_strings ce i with
    | .error e => .error e
    | .ok access_string =>
      let is_diff := check_suffix mq ce access_string i
      let same2 := if is_diff then same else i
      let diff2 := if is_diff then i else diff
      if diff2 - same2 = 1 then .ok diff2
      else rsLoop mq st ce fuel same2 diff2

/-- `MealyMachineLearner._process_ce_rs(ce)`: binary-search the breakpoint,
append `ce[diff:]` to the distinguishing suffixes, and fill the new column
for every access and transition row. -/
def process_ce_rs (mq : Word → Word) (st : MealyState) (ce : Word) :
    Except PyErr OTM :=
  match rsLoop mq st ce (ce.length + 2) 0 ce.length with
  | .error e => .error e
  | .ok diff =>
    let exp := ce.drop diff
    let ot1 := { st.ot with dist_strings := st.ot.dist_strings ++ [exp] }
    .ok ((ot1.access_strings ++ ot1.transitions).foldl
      (fun a row => fill_ot_entryM mq a row exp) ot1)

/-- A Mealy learner state with a one-state hypothesis and a filled table. -/
def mstEx : MealyState := { ot := otmW, hyp := exGoodT }

/-- C4 (code bug): Rivest–Schapire counterexample processing never adds a
suffix — its very first probe calls the broken `_run_in_hypothesis`
(see C2), so the whole call raises `UnboundLocalError` before
`dist_strings` is touched, on counterexamples of length 2 and of
length 1 alike. -/
theorem process_ce_rs_raises :
    process_ce_rs mqId mstEx [1, 0] = .error .nameErr ∧
    process_ce_rs mqId mstEx [1] = .error .nameErr := by
  constructor
  · rfl
  · rfl

/-! ## Lookahead learner (`angluin_fst_lookahead.py`)

`TransducerLearner._run_in_hypothesis` walks the hypothesis with the same
longest-match arc selection as `consume_input` (initialising `s_index = 0`)
and raises the invalid-input exception when no arc matches;
`_check_lookahead` scans the counterexample's prefix outputs for retracted
output, locates the lookahead segment, validates it with two membership
queries, and either adds one lookahead transition (then stops) or skips the
evidence; nothing catches exceptions, so an invalid-input failure raised
while traversing the hypothesis propagates out of
`_process_counterexample`. -/

/-- The learner state used by the lookahead counterexample processing. -/
structure LAState where
  ot : OTL
  hyp : Transducer

/-- The `while i != len(inp) and i < index` loop of the lookahead
`_run_in_hypothesis`, with fuel. -/
def laRunLoop (hyp : Transducer) (inp : Word) (index : Nat) :
    Nat → FstState → Nat → Nat → Except PyErr Nat
  | 0, _, _, _ => .error .diverge
  | fuel + 1, st, sIdx, i =>
    if i ≠ inp.length ∧ i < index then
      match findArc st.arcs inp i with
      | none => .error .invalidInput
      | some a =>
        match hyp.states[a.nextstate]? with
        | none => .error .indexErr
        | some st2 => laRunLoop hyp inp index fuel st2 a.nextstate (a.ilabel.length + i)
    else .ok sIdx

/-- `TransducerLearner._run_in_hypothesis(inp, index)`. -/
def la_run_in_hypothesis (hyp : Transducer) (accessStrings : List Word)
    (inp : Word) (index : Nat) : Except PyErr Word :=
  match hyp.states[0]? with
  | none => .error .indexErr
  | some st0 =>
    match laRunLoop hyp inp index (inp.length + 1) st0 0 0 with
    | .error e => .error e
    | .ok sIdx =>
      match accessStrings[sIdx]? with
      | none => .error .indexErr
      | some acc => .ok acc

/-- The prefix-closed membership queries gathered by `_check_lookahead`:
`prefix_set[0] = []` literally, `prefix_set[i] = MQ(inp[:i])` for
`i ≥ 1`.  (The parallel `prefix_set_input` list of the source is never
read and is omitted.) -/
def prefixOutputs (mq : Word → Word) (inp : Word) : List Word :=
  [] :: (List.range inp.length).map (fun k => mq (inp.take (k + 1)))

/-- The `for j in reversed(xrange(i))` search for the greatest `j < i`
whose prefix output survives in `prefix_set[i]`. -/
def searchJ (ps : List Word) (psi : Word) : List Nat → Option Nat
  | [] => none
  | j :: rest =>
    if commonPfx psi (ps.getD j []) = ps.getD j [] then some j
    else searchJ ps psi rest

/-- The `for i in xrange(1, len(prefix_set))` loop of `_check_lookahead`.
On a detected retraction the lookahead candidate is computed and validated
by two membership queries: a failed validation or an already-known
lookahead skips to the next `i` (`continue`), a new lookahead is added and
filled and the loop stops (`break`).  The `la_out` assigned before the
`j` search is dead (immediately recomputed from `prefix_set[j]`) and is
not modelled; if the `j` search fell through, the unbound `la_inp` would
raise a `NameError` (unreachable: `j = 0` always satisfies the test). -/
def checkLaLoop (mq : Word → Word) (hyp : Transducer) (inp : Word)
    (ps : List Word) : List Nat → OTL → Except PyErr OTL
  | [], ot => .ok ot
  | i :: rest, ot =>
    if commonPfx (ps.getD i []) (ps.getD (i - 1) []) ≠ ps.getD (i - 1) [] then
      match searchJ ps (ps.getD i []) (List.range i).reverse with
      | none => .error .nameErr
      | some j =>
        let la_inp := (inp.drop j).take (i - j)
        let la_out := remove_common_pfx (ps.getD i []) (ps.getD j [])
        match la_run_in_hypothesis hyp ot.access_strings inp j with
        | .error e => .error e
        | .ok access_string =>
          let out_as := mq access_string
          let out_complete := mq (access_string ++ la_inp)
          if remove_common_pfx out_complete out_as ≠ la_out then
            checkLaLoop mq hyp inp ps rest ot
          else if (access_string, la_inp, la_out) ∈ ot.lookaheads then
            checkLaLoop mq hyp inp ps rest ot
          else
            let ot1 := { ot with lookaheads :=
              ot.lookaheads ++ [(access_string, la_inp, la_out)] }
            .ok (ot1.dist_strings.foldl
              (fun a col => fill_ot_entryL mq a (access_string ++ la_inp) col) ot1)
    else checkLaLoop mq hyp inp ps rest ot

/-- `TransducerLearner._check_lookahead(inp)`. -/
def check_lookahead (mq : Word → Word) (st : LAState) (inp : Word) :
    Except PyErr OTL :=
  checkLaLoop mq st.hyp inp (prefixOutputs mq inp)
    (List.range' 1 inp.length) st.ot

/-- The longest common prefix length between the counterexample and any
non-empty access string (`maxlen` of the Shahbaz–Groz part). -/
def sgMaxlen (access : List Word) (ce : Word) : Nat :=
  access.foldl
    (fun m row => if row = [] then m else max m (commonPfx ce row).length) 0

/-- One iteration of the Shahbaz–Groz suffix loop: append the suffix to the
distinguishing strings when new, then fill it for every access, transition
and lookahead-extension row (the fills run even for an already-known
suffix). -/
def sgStep (mq : Word → Word) (ot : OTL) (suff : Word) : OTL :=
  let ot1 := if suff ∈ ot.dist_strings then ot
    else { ot with dist_strings := ot.dist_strings ++ [suff] }
  let ot2 := (ot1.access_strings ++ ot1.transitions).foldl
    (fun a row => fill_ot_entryL mq a row suff) ot1
  ot2.lookaheads.foldl (fun a x => fill_ot_entryL mq a (x.1 ++ x.2.1) suff) ot2

/-- The `for c in reversed(ce[maxlen:])` loop, growing the suffix from the
right. -/
def sgLoop (mq : Word → Word) : List Nat → Word → OTL → OTL
  | [], _, ot => ot
  | c :: cs, suff, ot => sgLoop mq cs (c :: suff) (sgStep mq ot (c :: suff))

/-- `TransducerLearner._process_counterexample(ce)`: lookahead detection
first, then Shahbaz–Groz suffix addition. -/
def process_counterexample (mq : Word → Word) (st : LAState) (ce : Word) :
    Except PyErr OTL :=
  match check_lookahead mq st ce with
  | .error e => .error e
  | .ok ot1 =>
    let maxlen := sgMaxlen ot1.access_strings ce
    .ok (sgLoop mq (ce.drop maxlen).reverse [] ot1)

/-- Membership oracle for the C3 scenario: the output for `[2,2,2]`
retracts the output implied for `[2,2]`. -/
def mqC3 : Word → Word := fun w =>
  if w = [2] then [7]
  else if w = [2, 2] then [7, 8]
  else if w = [2, 2, 2] then [7, 9]
  else []

/-- A lookahead learner state whose one-state hypothesis has only an arc on
symbol `1`. -/
def lstEx : LAState :=
  { ot := { table := [], access_strings := [[]], transitions := [[1]],
            dist_strings := [[1]], lookaheads := [], equiv_classes := [] },
    hyp := exGoodT }

/-- C3 counterexample: on the counterexample `[2,2,2]` a lookahead is
detected at position 3 with `j = 1`, and traversing the hypothesis for one
step raises invalid-input (no arc matches the symbol `2`); nothing catches
it, so `_process_counterexample` itself raises instead of treating it as a
skip signal. -/
theorem process_counterexample_propagates_invalid :
    process_counterexample mqC3 lstEx [2, 2, 2] = .error .invalidInput := by
  rfl

/-- C3 (amended): an invalid-input failure raised while traversing the
hypothesis during lookahead detection is not caught anywhere in
`_process_counterexample`: whatever error `_check_lookahead` raises
propagates unchanged to the caller (only a failed validation of the
discovered access string is treated as skip-this-evidence, via an ordinary
`continue`). -/
theorem check_lookahead_error_propagates (mq : Word → Word) (st : LAState)
    (ce : Word) (e : PyErr) (h : check_lookahead mq st ce = .error e) :
    process_counterexample mq st ce = .error e := by
  rw [process_counterexample, h]

/-- Witness for C3 (amended) at the concrete failing scenario. -/
theorem check_lookahead_error_propagates_witness :
    process_counterexample mqC3 lstEx [2, 2, 2] = .error PyErr.invalidInput :=
  check_lookahead_error_propagates mqC3 lstEx [2, 2, 2] .invalidInput (by rfl)

/-! ## Hypothesis construction (`TransducerLearner._construct_hypothesis`)

For every access string and alphabet symbol, one single-symbol arc is added
between the table positions of the access string and of its equivalence
class, with the cell's output (the epsilon sentinel when the cell is falsy);
then one multi-symbol arc per lookahead triple; finally every state is
marked final.  The dict/index lookups do not depend on the transducer under
construction, so the embedding computes the arc quadruples first and then
folds `add_arc` over them in the same order. -/

/-- Python `list.index(x)`: position of the first occurrence, `none`
standing for `ValueError`. -/
def pyIndex (l : List Word) (x : Word) : Option Nat :=
  match l with
  | [] => none
  | y :: ys => if y = x then some 0 else (pyIndex ys x).map (· + 1)

theorem pyIndex_getElem (l : List Word) (x : Word) :
    ∀ k, pyIndex l x = some k → l[k]? = some x := by
  induction l with
  | nil => intro k h; simp [pyIndex] at h
  | cons y ys ih =>
    intro k h
    rw [pyIndex] at h
    by_cases hy : y = x
    · rw [if_pos hy] at h
      simp at h
      subst h
      simp [hy]
    · rw [if_neg hy] at h
      cases hk : pyIndex ys x with
      | none => rw [hk] at h; exact absurd h (by simp)
      | some k0 =>
        rw [hk] at h
        simp at h
        subst h
        simpa using ih k0 hk

theorem pyIndex_of_mem (l : List Word) (x : Word) (h : x ∈ l) :
    ∃ k, pyIndex l x = some k := by
  induction l with
  | nil => simp at h
  | cons y ys ih =>
    by_cases hy : y = x
    · exact ⟨0, by rw [pyIndex, if_pos hy]⟩
    · have hx : x ∈ ys := by
        rcases List.mem_cons.mp h with rfl | hx
        · exact absurd rfl hy
        · exact hx
      obtain ⟨k, hk⟩ := ih hx
      exact ⟨k + 1, by rw [pyIndex, if_neg hy, hk]; rfl⟩

/-- The arc data computed for one `(acc_str, i)` pair of the nested loops:
destination class from `equiv_classes` (`KeyError` when missing — the
`dst is None` test of the source is dead code, a plain dict index never
yields `None`), output from the cell (the epsilon sentinel when the cell is
`None` or empty), and the two state indices via `list.index`. -/
def mealyArcQuad (ot : OTL) (acc : Word) (i : Nat) :
    Except PyErr (Nat × Nat × Word × Word) :=
  match alGet ot.equiv_classes (acc ++ [i]) with
  | none => .error .keyErr
  | some dst =>
    let out :=
      match otGet ot.table acc [i] with
      | none => [EPSILON]
      | some o => if o = [] then [EPSILON] else o
    match pyIndex ot.access_strings acc with
    | none => .error .valueErr
    | some src_id =>
      match pyIndex ot.access_strings dst with
      | none => .error .valueErr
      | some dst_id => .ok (src_id, dst_id, [i], out)

/-- The arc data for one lookahead triple `(src, inp, out)`. -/
def laArcQuad (ot : OTL) (x : Word × Word × Word) :
    Except PyErr (Nat × Nat × Word × Word) :=
  match alGet ot.equiv_classes (x.1 ++ x.2.1) with
  | none => .error .keyErr
  | some dst =>
    match pyIndex ot.access_strings x.1 with
    | none => .error .valueErr
    | some src_id =>
      match pyIndex ot.access_strings dst with
      | none => .error .valueErr
      | some dst_id => .ok (src_id, dst_id, x.2.1, x.2.2)

/-- Sequencing of the quadruple computations, stopping at the first
exception. -/
def quadList {α : Type} (f : α → Except PyErr (Nat × Nat × Word × Word)) :
    List α → Except PyErr (List (Nat × Nat × Word × Word))
  | [] => .ok []
  | x :: xs =>
    match f x with
    | .error e => .error e
    | .ok q =>
      match quadList f xs with
      | .error e => .error e
      | .ok qs => .ok (q :: qs)

/-- Mark every state final (`for state in hypothesis.states: state.final =
True`). -/
def markFinal (t : Transducer) : Transducer :=
  { states := t.states.map (fun st => { st with final := true }),
    I := t.I,
    states_ne := by simpa using t.states_ne }

/-- `TransducerLearner._construct_hypothesis()`. -/
def la_construct_hypothesis (ot : OTL) (I : List Nat) : Except PyErr Transducer :=
  match quadList (fun p => mealyArcQuad ot p.1 p.2)
      (ot.access_strings.flatMap (fun acc => I.map (fun i => (acc, i)))) with
  | .error e => .error e
  | .ok qs1 =>
    match quadList (laArcQuad ot) ot.lookaheads with
    | .error e => .error e
    | .ok qs2 =>
      .ok (markFinal ((qs1 ++ qs2).foldl
        (fun m q => m.add_arc q.1 q.2.1 q.2.2.1 q.2.2.2) Transducer.init))

/-- Longest-match determinism, decidably: no two arcs leaving one state
carry equal input labels. -/
def deterministicB (t : Transducer) : Bool :=
  t.states.all
    (fun st => decide (st.arcs.Pairwise (fun a b => a.ilabel ≠ b.ilabel)))

/-- C7 counterexample: `add_arc` performs no determinism check — adding a
second arc with the same input label at state 0 yields a transducer
violating longest-match determinism, so the invariant is not preserved by
`add_arc`. -/
theorem add_arc_breaks_determinism :
    deterministicB (Transducer.init.add_arc 0 0 [1] [2]) = true ∧
    deterministicB ((Transducer.init.add_arc 0 0 [1] [2]).add_arc 0 1 [1] [3])
      = false := by
  constructor
  · rfl
  · rfl

theorem quadList_forall2 {α : Type}
    (f : α → Except PyErr (Nat × Nat × Word × Word)) :
    ∀ (xs : List α) (qs : List (Nat × Nat × Word × Word)),
      quadList f xs = .ok qs → List.Forall₂ (fun x q => f x = .ok q) xs qs := by
  intro xs
  induction xs with
  | nil =>
    intro qs h
    rw [quadList] at h
    simp at h
    subst h
    exact List.Forall₂.nil
  | cons x rest ih =>
    intro qs h
    rw [quadList] at h
    cases hf : f x with
    | error e => rw [hf] at h; exact absurd h (by simp)
    | ok q =>
      rw [hf] at h
      cases hrest : quadList f rest with
      | error e => rw [hrest] at h; exact absurd h (by simp)
      | ok qs' =>
        rw [hrest] at h
        simp at h
        subst h
        exact List.Forall₂.cons hf (ih qs' hrest)

theorem forall2_mem_left {α β : Type} {R : α → β → Prop} :
    ∀ {xs : List α} {qs : List β}, List.Forall₂ R xs qs →
      ∀ x ∈ xs, ∃ q ∈ qs, R x q := by
  intro xs qs h
  induction h with
  | nil => intro x hx; simp at hx
  | cons hr _ ih =>
    intro x hx
    rcases List.mem_cons.mp hx with rfl | hx
    · exact ⟨_, List.mem_cons_self _ _, hr⟩
    · obtain ⟨q, hq, hrq⟩ := ih x hx
      exact ⟨q, List.mem_cons_of_mem _ hq, hrq⟩

theorem map_key_of_forall2 {α β γ : Type} {R : α → β → Prop}
    (key : β → γ) (g : α → γ) :
    ∀ {xs : List α} {qs : List β}, List.Forall₂ R xs qs →
      (∀ x q, R x q → key q = g x) → qs.map key = xs.map g := by
  intro xs qs h
  induction h with
  | nil => intro _; rfl
  | cons hr _ ih =>
    intro hkey
    simp only [List.map_cons]
    rw [hkey _ _ hr, ih hkey]

theorem mealyArcQuad_ok (ot : OTL) (acc : Word) (i : Nat)
    (q : Nat × Nat × Word × Word) (h : mealyArcQuad ot acc i = .ok q) :
    q.2.2.1 = [i] ∧ pyIndex ot.access_strings acc = some q.1 := by
  rw [mealyArcQuad] at h
  cases hd : alGet ot.equiv_classes (acc ++ [i]) with
  | none => rw [hd] at h; exact absurd h (by simp)
  | some dst =>
    cases hsrc : pyIndex ot.access_strings acc with
    | none => simp [hd, hsrc] at h
    | some src_id =>
      cases hdst : pyIndex ot.access_strings dst with
      | none => simp [hd, hsrc, hdst] at h
      | some dst_id =>
        simp only [hd, hsrc, hdst, Except.ok.injEq] at h
        subst h
        exact ⟨rfl, rfl⟩

theorem laArcQuad_ok (ot : OTL) (x : Word × Word × Word)
    (q : Nat × Nat × Word × Word) (h : laArcQuad ot x = .ok q) :
    q.2.2.1 = x.2.1 ∧ pyIndex ot.access_strings x.1 = some q.1 := by
  rw [laArcQuad] at h
  cases hd : alGet ot.equiv_classes (x.1 ++ x.2.1) with
  | none => rw [hd] at h; exact absurd h (by simp)
  | some dst =>
    cases hsrc : pyIndex ot.access_strings x.1 with
    | none => simp [hd, hsrc] at h
    | some src_id =>
      cases hdst : pyIndex ot.access_strings dst with
      | none => simp [hd, hsrc, hdst] at h
      | some dst_id =>
        simp only [hd, hsrc, hdst, Except.ok.injEq] at h
        subst h
        exact ⟨rfl, rfl⟩

/-- The (source index, input label) key of an arc quadruple. -/
def quadKey (q : Nat × Nat × Word × Word) : Nat × Word := (q.1, q.2.2.1)

/-- The arc added for a quadruple. -/
def quadArc (q : Nat × Nat × Word × Word) : FstArc :=
  { srcstate := q.1, nextstate := q.2.1, ilabel := q.2.2.1, olabel := q.2.2.2 }

theorem arcsAt_quadFold (qs : List (Nat × Nat × Word × Word)) (j : Nat) :
    ∀ t0, arcsAt
        (qs.foldl (fun m q => m.add_arc q.1 q.2.1 q.2.2.1 q.2.2.2) t0) j =
      arcsAt t0 j ++ (qs.filter (fun q => q.1 = j)).map quadArc := by
  induction qs with
  | nil => intro t0; simp
  | cons q qs' ih =>
    intro t0
    rw [List.foldl_cons, ih, arcsAt_add_arc]
    rw [List.filter_cons]
    by_cases hj : q.1 = j
    · rw [if_pos hj.symm, if_pos (by simpa using hj)]
      simp [quadArc]
    · rw [if_neg (fun hh => hj hh.symm), if_neg (by simpa using hj)]
      simp

theorem arcsAt_markFinal (t : Transducer) (j : Nat) :
    arcsAt (markFinal t) j = arcsAt t j := by
  unfold arcsAt markFinal
  simp only [List.getElem?_map]
  cases t.states[j]? <;> rfl

theorem deterministicB_of_arcsAt (t : Transducer)
    (h : ∀ j, (arcsAt t j).Pairwise (fun a b => a.ilabel ≠ b.ilabel)) :
    deterministicB t = true := by
  rw [deterministicB, List.all_eq_true]
  intro st hst
  obtain ⟨k, hk, hkeq⟩ := List.getElem_of_mem hst
  have harcs : arcsAt t k = st.arcs := by
    rw [arcsAt, List.getElem?_eq_getElem hk, hkeq]
    rfl
  rw [decide_eq_true_eq, ← harcs]
  exact h k

theorem pairwise_filter_quads (qs : List (Nat × Nat × Word × Word))
    (hk : (qs.map quadKey).Nodup) (j : Nat) :
    ((qs.filter (fun q => q.1 = j)).map quadArc).Pairwise
      (fun a b => a.ilabel ≠ b.ilabel) := by
  rw [List.pairwise_map]
  have hp : qs.Pairwise (fun a b => quadKey a ≠ quadKey b) :=
    List.pairwise_map.mp hk
  have hfil : (qs.filter (fun q => q.1 = j)).Pairwise
      (fun a b => quadKey a ≠ quadKey b) :=
    List.Pairwise.sublist (List.filter_sublist qs) hp
  refine List.Pairwise.imp_of_mem ?_ hfil
  intro a b ha hb hne
  have haj : a.1 = j := by simpa using (List.mem_filter.mp ha).2
  have hbj : b.1 = j := by simpa using (List.mem_filter.mp hb).2
  intro hil
  apply hne
  rw [quadKey, quadKey, haj, hbj]
  rw [show a.2.2.1 = (quadArc a).ilabel from rfl, hil]
  rfl

/-- Index assigned by `list.index` with a default, for stating injectivity. -/
def accIdxD (access : List Word) (w : Word) : Nat :=
  (pyIndex access w).getD 0

theorem accIdxD_inj (access : List Word) (w w' : Word)
    (hw : (pyIndex access w).isSome) (hw' : (pyIndex access w').isSome)
    (heq : accIdxD access w = accIdxD access w') : w = w' := by
  obtain ⟨k, hk⟩ := Option.isSome_iff_exists.mp hw
  obtain ⟨k', hk'⟩ := Option.isSome_iff_exists.mp hw'
  have h1 := pyIndex_getElem access w k hk
  have h2 := pyIndex_getElem access w' k' hk'
  rw [accIdxD, accIdxD, hk, hk'] at heq
  simp at heq
  subst heq
  rw [h1] at h2
  simpa using h2

/-- C7 (amended): `add_arc` itself checks nothing (see the counterexample),
but every hypothesis built by `_construct_hypothesis` satisfies
longest-match determinism — no two arcs leaving one state carry equal input
labels — provided the observation table satisfies the learner's invariants:
distinct access strings, duplicate-free alphabet, lookahead inputs of
length at least two, and no two lookahead triples sharing source and
input.  (The Mealy learner's construction is the special case with an empty
lookahead set.) -/
theorem construct_hypothesis_deterministic (ot : OTL) (I : List Nat)
    (mm : Transducer)
    (hacc : ot.access_strings.Nodup) (hI : I.Nodup)
    (hlen : ∀ x ∈ ot.lookaheads, 2 ≤ x.2.1.length)
    (hsi : (ot.lookaheads.map (fun x => (x.1, x.2.1))).Nodup)
    (h : la_construct_hypothesis ot I = .ok mm) :
    deterministicB mm = true := by
  rw [la_construct_hypothesis] at h
  cases h1 : quadList (fun p => mealyArcQuad ot p.1 p.2)
      (ot.access_strings.flatMap (fun acc => I.map (fun i => (acc, i)))) with
  | error e => rw [h1] at h; exact absurd h (by simp)
  | ok qs1 =>
    cases h2 : quadList (laArcQuad ot) ot.lookaheads with
    | error e => simp [h1, h2] at h
    | ok qs2 =>
      simp only [h1, h2, Except.ok.injEq] at h
      subst h
      have hf1 := quadList_forall2
        (fun p : Word × Nat => mealyArcQuad ot p.1 p.2) _ qs1 h1
      have hf2 := quadList_forall2 (laArcQuad ot) _ qs2 h2
      have hmap1 : qs1.map quadKey =
          (ot.access_strings.flatMap (fun acc => I.map (fun i => (acc, i)))).map
            (fun p : Word × Nat => (accIdxD ot.access_strings p.1, [p.2])) := by
        refine map_key_of_forall2 quadKey _ hf1 ?_
        intro p q hq
        obtain ⟨hil, hix⟩ := mealyArcQuad_ok ot p.1 p.2 q hq
        show (q.1, q.2.2.1) = (accIdxD ot.access_strings p.1, [p.2])
        rw [hil, accIdxD, hix]
        rfl
      have hmap2 : qs2.map quadKey =
          ot.lookaheads.map (fun x : Word × Word × Word => (accIdxD ot.access_strings x.1, x.2.1)) := by
        refine map_key_of_forall2 quadKey _ hf2 ?_
        intro x q hq
        obtain ⟨hil, hix⟩ := laArcQuad_ok ot x q hq
        show (q.1, q.2.2.1) = (accIdxD ot.access_strings x.1, x.2.1)
        rw [hil, accIdxD, hix]
        rfl
      have hn1 : ((ot.access_strings.flatMap
          (fun acc => I.map (fun i => (acc, i)))).map
            (fun p : Word × Nat => (accIdxD ot.access_strings p.1, [p.2]))).Nodup := by
        rw [List.map_flatMap]
        rw [List.nodup_flatMap]
        constructor
        · intro acc hmem
          rw [List.map_map]
          refine List.Nodup.map_on ?_ hI
          intro i hi i' hi' hii
          simpa using congrArg Prod.snd hii
        · refine List.Pairwise.imp_of_mem ?_ hacc
          intro acc acc' hm hm' hne
          intro y hy hy'
          simp only [List.map_map, Function.comp] at hy hy'
          obtain ⟨i, hi, hyi⟩ := List.mem_map.mp hy
          obtain ⟨i', hi', hyi'⟩ := List.mem_map.mp hy'
          have hfst : accIdxD ot.access_strings acc =
              accIdxD ot.access_strings acc' := by
            have := congrArg Prod.fst (hyi.trans hyi'.symm)
            simpa using this
          obtain ⟨k, hk⟩ := pyIndex_of_mem ot.access_strings acc hm
          obtain ⟨k', hk'⟩ := pyIndex_of_mem ot.access_strings acc' hm'
          exact hne (accIdxD_inj ot.access_strings acc acc'
            (by rw [hk]; rfl) (by rw [hk']; rfl) hfst)
      have hsome2 : ∀ p ∈ ot.lookaheads.map (fun x => (x.1, x.2.1)),
          (pyIndex ot.access_strings p.1).isSome := by
        intro p hp
        obtain ⟨x, hx, hpx⟩ := List.mem_map.mp hp
        obtain ⟨q, _, hq⟩ := forall2_mem_left hf2 x hx
        obtain ⟨_, hix⟩ := laArcQuad_ok ot x q hq
        rw [← hpx]
        rw [hix]
        rfl
      have hn2 : (ot.lookaheads.map
          (fun x : Word × Word × Word => (accIdxD ot.access_strings x.1, x.2.1))).Nodup := by
        have hcomp : ot.lookaheads.map
            (fun x : Word × Word × Word => (accIdxD ot.access_strings x.1, x.2.1)) =
            (ot.lookaheads.map (fun x => (x.1, x.2.1))).map
              (fun p : Word × Word => (accIdxD ot.access_strings p.1, p.2)) := by
          rw [List.map_map]
          rfl
        rw [hcomp]
        refine List.Nodup.map_on ?_ hsi
        intro p hp p' hp' hpp
        have hsnd : p.2 = p'.2 := by simpa using congrArg Prod.snd hpp
        have hfst : accIdxD ot.access_strings p.1 =
            accIdxD ot.access_strings p'.1 := by
          simpa using congrArg Prod.fst hpp
        have h11 : p.1 = p'.1 :=
          accIdxD_inj ot.access_strings p.1 p'.1 (hsome2 p hp) (hsome2 p' hp') hfst
        exact Prod.ext h11 hsnd
      have hdisj : ((ot.access_strings.flatMap
          (fun acc => I.map (fun i => (acc, i)))).map
            (fun p : Word × Nat => (accIdxD ot.access_strings p.1, [p.2]))).Disjoint
          (ot.lookaheads.map
            (fun x : Word × Word × Word => (accIdxD ot.access_strings x.1, x.2.1))) := by
        intro y hy hy'
        obtain ⟨p, _, hyp⟩ := List.mem_map.mp hy
        obtain ⟨x, hx, hyx⟩ := List.mem_map.mp hy'
        have hl1 : y.2.length = 1 := by rw [← hyp]; rfl
        have hl2 : 2 ≤ y.2.length := by
          rw [← hyx]
          exact hlen x hx
        omega
      have hk : ((qs1 ++ qs2).map quadKey).Nodup := by
        rw [List.map_append, hmap1, hmap2]
        exact List.nodup_append.mpr ⟨hn1, hn2, hdisj⟩
      refine deterministicB_of_arcsAt _ ?_
      intro j
      rw [arcsAt_markFinal, arcsAt_quadFold (qs1 ++ qs2) j Transducer.init,
        arcsAt_init, List.nil_append]
      exact pairwise_filter_quads (qs1 ++ qs2) hk j

/-- Default value extraction from an `Except`. -/
def exceptGetD {ε α : Type} (e : Except ε α) (d : α) : α :=
  match e with
  | .ok a => a
  | .error _ => d

/-- A closed one-state lookahead table for the C7 witness. -/
def otlC7 : OTL :=
  { table := [([], [([1], [9])])], access_strings := [[]],
    transitions := [[1]], dist_strings := [[1]], lookaheads := [],
    equiv_classes := [([1], [])] }

/-- The hypothesis constructed from `otlC7`. -/
def mmC7 : Transducer :=
  exceptGetD (la_construct_hypothesis otlC7 [1]) Transducer.init

/-- Witness for C7 (amended): the hypothesis built from a concrete table
satisfying the invariants is deterministic. -/
theorem construct_hypothesis_deterministic_witness :
    deterministicB mmC7 = true :=
  construct_hypothesis_deterministic otlC7 [1] mmC7 (by decide) (by decide)
    (by decide) (by decide) (by rfl)
